import Mathlib

/-!
# go-changed-pkgs: change-impact propagation

A shallow embedding of `pkg/changed/changed.go` and `internal/git/git.go`.

* Go sets `map[string]struct{}` are lists of strings used only through membership and
  `StringSet.add`; Go maps `map[string]V` are association lists with unique keys (`GoMap`).
  Go iterates maps in an unspecified order; every loop over a map below is modelled by a loop
  over the list, and the properties proved are about membership, which no order can change.
* What the program obtains from outside (running `git`, `modfile.Parse`, `packages.Load`,
  `filepath.Abs`, `filepath.Join`, `filepath.Base`) is a field of `Env`.
* Go `error` values are strings; `fmt.Errorf` is string concatenation.
* Logging calls have no effect on the results and are left out, and so is the `context`
  argument, which only carries the logger and the cancellation of the `git` process.
-/

set_option linter.dupNamespace false
set_option linter.unusedVariables false

/-! ## Data model (the library types the program reads) -/

namespace module

/-- Type `module.Version` of golang.org/x/mod/module: a module path with a version. -/
structure Version where
  Path : String
  Version : String
deriving DecidableEq

end module

namespace modfile

/-- Type `modfile.Require`: one requirement of a go.mod file. -/
structure Require where
  Mod : module.Version
  Indirect : Bool
deriving DecidableEq

/-- Type `modfile.Replace`: one replace directive, `Old => New`. -/
structure Replace where
  Old : module.Version
  New : module.Version
deriving DecidableEq

/-- Type `modfile.File`: the fields of a parsed go.mod that the program reads. -/
structure File where
  Require : List Require
  Replace : List Replace
deriving DecidableEq

end modfile

namespace packages

/-- Type `packages.Module`: the module backing a package. -/
structure Module where
  Path : String
  Version : String
deriving DecidableEq

/-- Type `packages.Package`: the fields the program reads. `Imports` is the Go map from import
path to imported package, as a list of its entries. -/
inductive Package where
  | mk (PkgPath : String) (Errors : List String)
      (GoFiles OtherFiles EmbedFiles : List String)
      (Imports : List (String × Package)) (Module : Option Module) : Package

namespace Package

/-- Field `PkgPath`. -/
def PkgPath : Package → String
  | mk p _ _ _ _ _ _ => p

/-- Field `Errors`. -/
def Errors : Package → List String
  | mk _ e _ _ _ _ _ => e

/-- Field `GoFiles`. -/
def GoFiles : Package → List String
  | mk _ _ g _ _ _ _ => g

/-- Field `OtherFiles`. -/
def OtherFiles : Package → List String
  | mk _ _ _ o _ _ _ => o

/-- Field `EmbedFiles`. -/
def EmbedFiles : Package → List String
  | mk _ _ _ _ e _ _ => e

/-- Field `Imports`. -/
def Imports : Package → List (String × Package)
  | mk _ _ _ _ _ i _ => i

/-- Field `Module`. -/
def Module : Package → Option packages.Module
  | mk _ _ _ _ _ _ m => m

end Package

end packages

/-! ## Go sets and maps -/

/-- A Go `map[string]struct{}`. -/
abbrev StringSet := List String

namespace StringSet

/-- Statement `s[k] = struct{}{}`. -/
def add (s : StringSet) (k : String) : StringSet :=
  if k ∈ s then s else s ++ [k]

end StringSet

/-- A Go `map[string]V`. -/
abbrev GoMap (V : Type) := List (String × V)

namespace GoMap

/-- Expression `v, ok := m[k]`. -/
def get {V : Type} : GoMap V → String → Option V
  | [], _ => none
  | (k', v) :: m, k => if k' = k then some v else get m k

/-- Statement `delete(m, k)`. -/
def delete {V : Type} : GoMap V → String → GoMap V
  | [], _ => []
  | (k', v) :: m, k => if k' = k then delete m k else (k', v) :: delete m k

/-- Statement `m[k] = v`. -/
def set {V : Type} (m : GoMap V) (k : String) (v : V) : GoMap V :=
  (k, v) :: delete m k

/-- The keys visited by `for k := range m`. -/
def keys {V : Type} (m : GoMap V) : List String :=
  m.map Prod.fst

end GoMap

/-! ## The outside world -/

/-- Outcome of running a command: the error of `cmd.Run()` if any, and what the command wrote. -/
structure CmdResult where
  err : Option String
  stdout : String
  stderr : String

/-- What the program obtains from outside itself. -/
structure Env where
  /-- Running the command with these arguments (`cmd.Args`, the program name first). -/
  Run : List String → CmdResult
  /-- Function `modfile.Parse(file, data, nil)`. -/
  Parse : String → String → Except String modfile.File
  /-- Function `packages.Load(&cfg, "./...")` with `cfg.Dir` the argument. -/
  Load : String → Except String (List packages.Package)
  /-- Function `filepath.Abs`. -/
  Abs : String → Except String String
  /-- Function `filepath.Join` of two elements. -/
  Join : String → String → String
  /-- Function `filepath.Base`. -/
  Base : String → String

/-! ## Go strings

A Go string is a sequence of bytes, here a sequence of characters. The program only trims and
splits at NUL, a single byte that is part of no other character's UTF-8 encoding, so both
views cut a text at the same places. -/

namespace strings

/-- Function `strings.TrimSuffix`. -/
def TrimSuffix (s suffix : String) : String :=
  if suffix.data.isSuffixOf s.data then
    ⟨s.data.take (s.data.length - suffix.data.length)⟩
  else s

/-- The pieces of a list of characters around each separator character; `cur` is the piece
read so far. -/
def splitChars (sep : Char) : List Char → List Char → List (List Char)
  | cur, [] => [cur]
  | cur, c :: cs =>
    if c = sep then cur :: splitChars sep [] cs else splitChars sep (cur ++ [c]) cs

/-- Function `strings.Split` for a separator of one character, the only use in the
program. -/
def Split (s : String) (sep : Char) : List String :=
  (splitChars sep [] s.data).map String.mk

end strings

/-! ## internal/git/git.go -/

namespace git

/-- Function `runCmd` (git.go 13-30). -/
def runCmd (env : Env) (args : List String) : Except String String :=
  let r := env.Run args
  match r.err with
  | some err =>
    .error ("running command: `" ++ " ".intercalate args ++ "`: " ++ err
      ++ "\nstderr: " ++ r.stderr)
  | none => .ok r.stdout

/-- Function `RunGitCmd` (git.go 32-34). -/
def RunGitCmd (env : Env) (args : List String) : Except String String :=
  runCmd env ("git" :: args)

end git

/-! ## pkg/changed/changed.go -/

namespace changed

open packages (Package)

/-- Function `isChangedFromImports` (changed.go 291-324): the loop over the entries of
`imports`, returning at the first hit. -/
def isChangedFromImports (pkgPath : String) (imports : List (String × Package))
    (changedMods : StringSet) (changedPackages : StringSet) : Bool :=
  match imports with
  | [] => false
  | (importPath, importPkg) :: rest =>
    if importPath ∈ changedPackages then true
    else
      match importPkg.Module with
      | some mod =>
        if mod.Path ∈ changedMods then true
        else isChangedFromImports pkgPath rest changedMods changedPackages
      | none => isChangedFromImports pkgPath rest changedMods changedPackages

/-- Function `fileInPkg` (changed.go 282-289). -/
def fileInPkg (env : Env) (pkg : Package) (repoDir : String) (path : String) : Bool :=
  let absPath := env.Join repoDir path
  decide (absPath ∈ pkg.GoFiles) || decide (absPath ∈ pkg.OtherFiles)
    || decide (absPath ∈ pkg.EmbedFiles)

/-- Function `readModFileAtRef` (changed.go 259-280). -/
def readModFileAtRef (env : Env) (repoDir modPath ref : String) : Except String modfile.File :=
  match git.RunGitCmd env ["-C", repoDir, "show", ref ++ ":" ++ modPath] with
  | .error err => .error ("reading " ++ modPath ++ " at " ++ ref ++ ": " ++ err)
  | .ok modData =>
    match env.Parse modPath modData with
    | .error err => .error ("parsing mod file " ++ modPath ++ " at " ++ ref ++ ": " ++ err)
    | .ok modFile => .ok modFile

/-- Function `readModFiles` (changed.go 240-257): returns `(newModFile, oldModFile)`. -/
def readModFiles (env : Env) (repoDir modPath fromRef toRef : String) :
    Except String (modfile.File × modfile.File) :=
  match readModFileAtRef env repoDir modPath fromRef with
  | .error err => .error err
  | .ok oldModFile =>
    match readModFileAtRef env repoDir modPath toRef with
    | .error err => .error err
    | .ok newModFile => .ok (newModFile, oldModFile)

/-- Loop of changed.go 211-213: `oldReplaceMap[replace.Old.Path] = replace.New`. -/
def changedModsFromReplace.oldReplaceMap (replaces : List modfile.Replace) :
    GoMap module.Version :=
  replaces.foldl (fun m replace => GoMap.set m replace.Old.Path replace.New) []

/-- Body of the loop of changed.go 215-229 on the pair `(changedMods, oldReplaceMap)`. -/
def changedModsFromReplace.step (st : StringSet × GoMap module.Version)
    (replace : modfile.Replace) : StringSet × GoMap module.Version :=
  let path := replace.Old.Path
  match GoMap.get st.2 path with
  | none => (StringSet.add st.1 replace.Old.Path, st.2)
  | some oldVersion =>
    let changedMods :=
      if oldVersion ≠ replace.New then StringSet.add st.1 replace.Old.Path else st.1
    (changedMods, GoMap.delete st.2 path)

/-- Function `changedModsFromReplace` (changed.go 205-238). -/
def changedModsFromReplace (curModFile oldModFile : modfile.File) : StringSet :=
  let oldReplaceMap := changedModsFromReplace.oldReplaceMap oldModFile.Replace
  let st := curModFile.Replace.foldl changedModsFromReplace.step ([], oldReplaceMap)
  (GoMap.keys st.2).foldl StringSet.add st.1

/-- Loop of changed.go 190-193: `oldModMap[req.Mod.Path] = req`. -/
def getChangedMods.oldModMap (requires : List modfile.Require) : GoMap modfile.Require :=
  requires.foldl (fun m req => GoMap.set m req.Mod.Path req) []

/-- Body of the loop of changed.go 194-200. -/
def getChangedMods.step (oldModMap : GoMap modfile.Require) (changedMods : StringSet)
    (req : modfile.Require) : StringSet :=
  match GoMap.get oldModMap req.Mod.Path with
  | some old =>
    if req.Mod.Version ≠ old.Mod.Version then StringSet.add changedMods req.Mod.Path
    else changedMods
  | none => changedMods

/-- Function `getChangedMods` (changed.go 174-203). -/
def getChangedMods (env : Env) (modPath repoDir fromRef toRef : String) :
    Except String StringSet :=
  match readModFiles env repoDir modPath fromRef toRef with
  | .error err => .error err
  | .ok (curModFile, oldModFile) =>
    let changedMods := changedModsFromReplace curModFile oldModFile
    let oldModMap := getChangedMods.oldModMap oldModFile.Require
    .ok (curModFile.Require.foldl (getChangedMods.step oldModMap) changedMods)

/-- Inner loop of `collectChanges` (changed.go 155-168): the first package owning the file is
marked, then `break`. -/
def collectChanges.markOwner (env : Env) (pkgs : List Package) (repoDir path : String)
    (changedPackages : StringSet) : StringSet :=
  match pkgs with
  | [] => changedPackages
  | pkg :: rest =>
    if fileInPkg env pkg repoDir path then StringSet.add changedPackages pkg.PkgPath
    else collectChanges.markOwner env rest repoDir path changedPackages

/-- Outer loop of `collectChanges` (changed.go 146-169) from the state
`(changedPackages, changedMods)`. -/
def collectChanges.loop (env : Env) (pkgs : List Package) (repoDir fromRef toRef : String) :
    List String → StringSet → StringSet → Except String (StringSet × StringSet)
  | [], changedPackages, changedMods => .ok (changedPackages, changedMods)
  | path :: rest, changedPackages, changedMods =>
    if env.Base path = "go.mod" then
      match getChangedMods env path repoDir fromRef toRef with
      | .error err => .error err
      | .ok changedMods1 =>
        collectChanges.loop env pkgs repoDir fromRef toRef rest
          (collectChanges.markOwner env pkgs repoDir path changedPackages) changedMods1
    else
      collectChanges.loop env pkgs repoDir fromRef toRef rest
        (collectChanges.markOwner env pkgs repoDir path changedPackages) changedMods

/-- Function `collectChanges` (changed.go 134-172). -/
def collectChanges (env : Env) (changedFiles : List String) (pkgs : List Package)
    (repoDir fromRef toRef : String) : Except String (StringSet × StringSet) :=
  collectChanges.loop env pkgs repoDir fromRef toRef changedFiles [] []

/-- Body of the loop of `GetChangedPackages` (changed.go 72-79). -/
def GetChangedPackages.step (changedMods : StringSet) (changedPackages : StringSet)
    (pkg : Package) : StringSet :=
  if pkg.PkgPath ∈ changedPackages then changedPackages
  else if isChangedFromImports pkg.PkgPath pkg.Imports changedMods changedPackages then
    StringSet.add changedPackages pkg.PkgPath
  else changedPackages

/-- Loop of `GetChangedPackages` (changed.go 72-79), the propagation pass: from the
directly changed packages to the returned set. -/
def GetChangedPackages.propagate (pkgs : List Package) (changedMods : StringSet)
    (changedPackages : StringSet) : StringSet :=
  pkgs.foldl (GetChangedPackages.step changedMods) changedPackages

/-- Loop of `loadLocalPackages` (changed.go 110-114): the first package with errors fails
the load. -/
def loadLocalPackages.check : List Package → Except String Unit
  | [] => .ok ()
  | pkg :: rest =>
    if pkg.Errors.length ≠ 0 then
      .error ("failed querying package " ++ pkg.PkgPath ++ ": ["
        ++ " ".intercalate pkg.Errors ++ "]")
    else loadLocalPackages.check rest

/-- Function `loadLocalPackages` (changed.go 87-117). -/
def loadLocalPackages (env : Env) (modDir : String) : Except String (List Package) :=
  match env.Load modDir with
  | .error err => .error ("failed listing local packages: " ++ err)
  | .ok pkgs =>
    match loadLocalPackages.check pkgs with
    | .error err => .error err
    | .ok _ => .ok pkgs

/-- Function `getChangedFiles` (changed.go 119-132). -/
def getChangedFiles (env : Env) (repoDir fromRef toRef : String) :
    Except String (List String) :=
  match git.RunGitCmd env ["-C", repoDir, "diff", "--name-only", "-z", fromRef, toRef] with
  | .error err => .error ("listing changed files: " ++ err)
  | .ok out => .ok (strings.Split (strings.TrimSuffix out "\x00") (Char.ofNat 0))

/-- Lines 58-85 of `GetChangedPackages`: from the changed files to the returned packages.
The returned slice holds the keys of `changedPackages`, in an order Go leaves open. -/
def GetChangedPackages.fromChangedFiles (env : Env) (changedFiles : List String)
    (pkgs : List Package) (repoDir fromRef toRef : String) : Except String (List String) :=
  match collectChanges env changedFiles pkgs repoDir fromRef toRef with
  | .error err => .error err
  | .ok (changedPackages, changedMods) =>
    .ok (GetChangedPackages.propagate pkgs changedMods changedPackages)

/-- Function `GetChangedPackages` (changed.go 31-85). On failure `filepath.Abs` returns the
empty string, which is what the error message then shows for `repoDir`. -/
def GetChangedPackages (env : Env) (repoDir modDir fromRef toRef : String) :
    Except String (List String) :=
  match loadLocalPackages env modDir with
  | .error err => .error err
  | .ok pkgs =>
    match env.Abs repoDir with
    | .error err => .error ("failed building absolute path for " ++ "" ++ ": " ++ err)
    | .ok repoDir =>
      match getChangedFiles env repoDir fromRef toRef with
      | .error err => .error err
      | .ok changedFiles =>
        GetChangedPackages.fromChangedFiles env changedFiles pkgs repoDir fromRef toRef

/-! ## Notions used to state the properties -/

/-- The package paths of a sequence, in order. -/
def pkgPaths (pkgs : List Package) : List String :=
  pkgs.map Package.PkgPath

/-- The package paths of a sequence are pairwise different. -/
def UniquePaths (pkgs : List Package) : Prop :=
  (pkgPaths pkgs).Nodup

instance (pkgs : List Package) : Decidable (UniquePaths pkgs) := by
  unfold UniquePaths; infer_instance

/-- Check of the ordering precondition on the rest of a sequence: `all` are the paths of the
whole sequence, `seen` the paths of the packages before the rest. -/
def depsFirstFrom (all : List String) : List String → List Package → Bool
  | _, [] => true
  | seen, pkg :: rest =>
    pkg.Imports.all (fun e => !decide (e.1 ∈ all) || decide (e.1 ∈ seen))
      && depsFirstFrom all (seen ++ [pkg.PkgPath]) rest

/-- The ordering precondition: every import of a package whose path is the path of a package
of the sequence is the path of a package strictly earlier in the sequence. -/
def DepsFirst (pkgs : List Package) : Prop :=
  depsFirstFrom (pkgPaths pkgs) [] pkgs = true

instance (pkgs : List Package) : Decidable (DepsFirst pkgs) := by
  unfold DepsFirst; infer_instance

/-- An import entry is a hit for `isChangedFromImports`: its path is in `changedPackages` or
the imported package is backed by a module in `changedMods`. -/
def ImportHit (changedMods changedPackages : StringSet) (e : String × Package) : Prop :=
  e.1 ∈ changedPackages ∨ ∃ mod, e.2.Module = some mod ∧ mod.Path ∈ changedMods

/-- Package `q` is reachable from package `p` by following one or more import edges, through
any packages, members of a sequence or not. -/
inductive Reaches : Package → Package → Prop
  | edge {p : Package} {e : String × Package} : e ∈ p.Imports → Reaches p e.2
  | step {p r : Package} {e : String × Package} :
      e ∈ p.Imports → Reaches e.2 r → Reaches p r

/-- Package `p` of the sequence reaches a package backed by a module in `changedMods` by a chain
of import edges in which every package but the last one is a package of the sequence: each
edge but the last leads, by its import path, to the package of the sequence with that path. -/
inductive ReachesChangedModule (pkgs : List Package) (changedMods : StringSet) :
    Package → Prop
  | direct {p : Package} {e : String × Package} {m : packages.Module} :
      p ∈ pkgs → e ∈ p.Imports → e.2.Module = some m → m.Path ∈ changedMods →
      ReachesChangedModule pkgs changedMods p
  | via {p q : Package} {e : String × Package} :
      p ∈ pkgs → e ∈ p.Imports → q ∈ pkgs → q.PkgPath = e.1 →
      ReachesChangedModule pkgs changedMods q → ReachesChangedModule pkgs changedMods p

/-- The files of a package: `GoFiles`, `OtherFiles` and `EmbedFiles`. -/
def ownedFiles (pkg : Package) : List String :=
  pkg.GoFiles ++ pkg.OtherFiles ++ pkg.EmbedFiles

/-- Each file path is owned by at most one package of the sequence, a package being
identified by its path. -/
def OwnedByAtMostOne (pkgs : List Package) : Prop :=
  ∀ p ∈ pkgs, ∀ q ∈ pkgs, ∀ f ∈ ownedFiles p, f ∈ ownedFiles q → p.PkgPath = q.PkgPath

instance (pkgs : List Package) : Decidable (OwnedByAtMostOne pkgs) := by
  unfold OwnedByAtMostOne; infer_instance

/-- The last path of the list whose base name is go.mod, if any. -/
def lastGoMod (env : Env) : List String → Option String
  | [] => none
  | path :: rest =>
    match lastGoMod env rest with
    | some p => some p
    | none => if env.Base path = "go.mod" then some path else none

/-- The source module paths of the replace directives of a go.mod, in order. -/
def replaceSources (f : modfile.File) : List String :=
  f.Replace.map (fun r => r.Old.Path)

/-- The module paths of the requirements of a go.mod, in order. -/
def requirePaths (f : modfile.File) : List String :=
  f.Require.map (fun r => r.Mod.Path)

/-- At most one replace directive per source module path. -/
def UniqueReplaceSources (f : modfile.File) : Prop :=
  (replaceSources f).Nodup

instance (f : modfile.File) : Decidable (UniqueReplaceSources f) := by
  unfold UniqueReplaceSources; infer_instance

/-- At most one requirement per module path. -/
def UniqueRequires (f : modfile.File) : Prop :=
  (requirePaths f).Nodup

instance (f : modfile.File) : Decidable (UniqueRequires f) := by
  unfold UniqueRequires; infer_instance

/-! ## Example graphs -/

/-- A package with a path, imports and a backing module, and no files. -/
def examplePkg (path : String) (imports : List (String × Package))
    (mod : Option packages.Module) : Package :=
  Package.mk path [] [] [] [] imports mod

/-- Package pkgA, no imports. -/
def pkgA : Package := examplePkg "pkgA" [] none

/-- Package pkgB imports pkgA. -/
def pkgB : Package := examplePkg "pkgB" [("pkgA", pkgA)] none

/-- Package pkgC imports pkgB. -/
def pkgC : Package := examplePkg "pkgC" [("pkgB", pkgB)] none

/-- Third-party package r of module example.com/modr. -/
def thirdR : Package := examplePkg "example.com/modr/r" [] (some ⟨"example.com/modr", "v1.1.0"⟩)

/-- Third-party package q of module example.com/modq, importing r. -/
def thirdQ : Package :=
  examplePkg "example.com/modq/q" [("example.com/modr/r", thirdR)]
    (some ⟨"example.com/modq", "v1.0.0"⟩)

/-- Local package p importing the third-party package q. -/
def localP : Package :=
  examplePkg "local/p" [("example.com/modq/q", thirdQ)] (some ⟨"local", ""⟩)

/-- Local package p2 importing the local package p. -/
def localP2 : Package :=
  examplePkg "local/p2" [("local/p", localP)] (some ⟨"local", ""⟩)

/-- Package pkgX backed by module M, no imports. -/
def pkgX : Package := examplePkg "pkgX" [] (some ⟨"M", "v1"⟩)

/-- Package pkgY imports pkgX. -/
def pkgY : Package := examplePkg "pkgY" [("pkgX", pkgX)] none

/-- Package pkgA with the file pkgA/file.go of the repository /repo. -/
def pkgAWithFile : Package := Package.mk "pkgA" [] ["/repo/pkgA/file.go"] [] [] [] none

/-- Third-party package of module lib. -/
def libPkg : Package := examplePkg "lib/x" [] (some ⟨"lib", "v2"⟩)

/-- Local package importing the package of module lib, with one file. -/
def localL : Package :=
  Package.mk "local/l" [] ["/repo/l/l.go"] [] [] [("lib/x", libPkg)] (some ⟨"local", ""⟩)

/-- The last element of a slash-separated path, for the examples: `acc` is the element read so
far. -/
def exampleBaseChars : List Char → List Char → List Char
  | acc, [] => acc
  | acc, c :: cs => if c = '/' then exampleBaseChars [] cs else exampleBaseChars (acc ++ [c]) cs

/-- An outside world for the examples. Every command succeeds and prints its last argument,
so `git ... show ref:path` prints the text `ref:path`; parsing that text gives the go.mod
listed for it in `files`. -/
def exampleEnv (files : List (String × modfile.File)) : Env where
  Run := fun args => ⟨none, args.getLastD "", ""⟩
  Parse := fun _ data =>
    match files.lookup data with
    | some f => .ok f
    | none => .error "unexpected input"
  Load := fun _ => .ok []
  Abs := fun p => .ok p
  Join := fun dir p => dir ++ "/" ++ p
  Base := fun p => ⟨exampleBaseChars [] p.data⟩

/-- A go.mod requiring lib at v1. -/
def modLibV1 : modfile.File := ⟨[⟨⟨"lib", "v1"⟩, false⟩], []⟩

/-- A go.mod requiring lib at v2. -/
def modLibV2 : modfile.File := ⟨[⟨⟨"lib", "v2"⟩, false⟩], []⟩

/-- A go.mod with the replace directive A => A v1. -/
def modReplaceA : modfile.File := ⟨[], [⟨⟨"A", ""⟩, ⟨"A", "v1"⟩⟩]⟩

/-- A go.mod without requirements and replace directives. -/
def modEmpty : modfile.File := ⟨[], []⟩

/-- The outside world of the examples with one go.mod, requiring lib at v1 at the reference
old and lib at v2 at the reference new. -/
def envLibBump : Env :=
  exampleEnv [("old:go.mod", modLibV1), ("new:go.mod", modLibV2)]

/-- The outside world of the examples with two go.mod files: a/go.mod requires lib at v1 at
old and at v2 at new, b/go.mod is empty at both references. -/
def envTwoGoMods : Env :=
  exampleEnv [("old:a/go.mod", modLibV1), ("new:a/go.mod", modLibV2),
    ("old:b/go.mod", modEmpty), ("new:b/go.mod", modEmpty)]

/-- A go.mod requiring lib at v1 and replacing A by A v1. -/
def modLibReplaceA : modfile.File := ⟨[⟨⟨"lib", "v1"⟩, false⟩], [⟨⟨"A", ""⟩, ⟨"A", "v1"⟩⟩]⟩

/-! ## Notions and examples for the whole run -/

/-- Repeating the pass until a pass marks no new package, the fixed-point iteration the
specification describes as the alternative to the single pass; at most `fuel` passes change
the set. -/
def propagateUntilStable : Nat → List Package → StringSet → StringSet → StringSet
  | 0, _, _, changedPackages => changedPackages
  | fuel + 1, pkgs, changedMods, changedPackages =>
    if GetChangedPackages.propagate pkgs changedMods changedPackages = changedPackages then
      changedPackages
    else
      propagateUntilStable fuel pkgs changedMods
        (GetChangedPackages.propagate pkgs changedMods changedPackages)

/-- The output of `git diff --name-only -z` for a list of paths: each path followed by a
NUL character. -/
def nulTerminated (paths : List String) : String :=
  String.join (paths.map (fun p => p ++ "\x00"))

/-- A go.mod requiring dep at v1. -/
def modDepV1 : modfile.File := ⟨[⟨⟨"dep", "v1"⟩, false⟩], []⟩

/-- A go.mod requiring dep at v2. -/
def modDepV2 : modfile.File := ⟨[⟨⟨"dep", "v2"⟩, false⟩], []⟩

/-- Third-party package of module dep. -/
def depPkg : Package := examplePkg "dep/d" [] (some ⟨"dep", "v2"⟩)

/-- Scenario package pkgA: owns pkgA/file.go, no imports. -/
def scenarioPkgA : Package :=
  Package.mk "pkgA" [] ["/repo/pkgA/file.go"] [] [] [] (some ⟨"local", ""⟩)

/-- Scenario package pkgB: has a package of module dep among its imports. -/
def scenarioPkgB : Package :=
  Package.mk "pkgB" [] ["/repo/pkgB/b.go"] [] [] [("dep/d", depPkg)] (some ⟨"local", ""⟩)

/-- Scenario package pkgC: has pkgB among its imports. -/
def scenarioPkgC : Package :=
  Package.mk "pkgC" [] ["/repo/pkgC/c.go"] [] [] [("pkgB", scenarioPkgB)]
    (some ⟨"local", ""⟩)

/-- The outside world of the end-to-end scenario: the packages pkgA, pkgB, pkgC load without
errors, `git diff` lists go.mod and pkgA/file.go, and go.mod requires dep at v1 at the
reference old and dep at v2 at the reference new. -/
def scenarioEnv : Env where
  Run := fun args =>
    if args.drop 3 = ["diff", "--name-only", "-z", "old", "new"] then
      ⟨none, nulTerminated ["go.mod", "pkgA/file.go"], ""⟩
    else ⟨none, args.getLastD "", ""⟩
  Parse := (exampleEnv [("old:go.mod", modDepV1), ("new:go.mod", modDepV2)]).Parse
  Load := fun _ => .ok [scenarioPkgA, scenarioPkgB, scenarioPkgC]
  Abs := fun p => .ok p
  Join := fun dir p => dir ++ "/" ++ p
  Base := fun p => ⟨exampleBaseChars [] p.data⟩

/-- Two packages listing the same file /repo/shared/x.go: the first one of the sequence. -/
def ownerFirst : Package := Package.mk "first" [] ["/repo/shared/x.go"] [] [] [] none

/-- Two packages listing the same file /repo/shared/x.go: the second one of the sequence. -/
def ownerSecond : Package := Package.mk "second" [] [] ["/repo/shared/x.go"] [] [] none

/-- A go.mod with two replace directives for the source module path A. -/
def modTwoReplacesA : modfile.File :=
  ⟨[], [⟨⟨"A", "v1"⟩, ⟨"X", "v1"⟩⟩, ⟨⟨"A", "v2"⟩, ⟨"Y", "v1"⟩⟩]⟩

/-- A go.mod requiring lib twice, at v1 and at v2. -/
def modTwoRequiresLib : modfile.File :=
  ⟨[⟨⟨"lib", "v1"⟩, false⟩, ⟨⟨"lib", "v2"⟩, false⟩], []⟩

/-- A go.mod with the replace directive A => B v1. -/
def modReplaceAByB : modfile.File := ⟨[], [⟨⟨"A", ""⟩, ⟨"B", "v1"⟩⟩]⟩

end changed

/-! # Properties -/

namespace changed

open packages (Package)

/-! ## Sets and maps -/

theorem StringSet.mem_add (s : StringSet) (k x : String) :
    x ∈ StringSet.add s k ↔ x ∈ s ∨ x = k := by
  unfold StringSet.add
  by_cases h : k ∈ s
  · simp only [h, if_true]
    constructor
    · exact Or.inl
    · rintro (h1 | h1)
      · exact h1
      · exact h1 ▸ h
  · simp [h]

theorem StringSet.mem_foldl_add (ks : List String) :
    ∀ (s : StringSet) (x : String), x ∈ ks.foldl StringSet.add s ↔ x ∈ s ∨ x ∈ ks := by
  induction ks with
  | nil => intro s x; simp
  | cons k ks ih =>
    intro s x
    rw [List.foldl_cons, ih, StringSet.mem_add, List.mem_cons, or_assoc]

theorem GoMap.get_delete {V : Type} (m : GoMap V) (k x : String) :
    GoMap.get (GoMap.delete m k) x = if x = k then none else GoMap.get m x := by
  induction m with
  | nil => simp [GoMap.delete, GoMap.get]
  | cons e m ih =>
    obtain ⟨k', v⟩ := e
    by_cases h1 : k' = k
    · subst h1
      by_cases h2 : x = k'
      · subst h2
        simpa [GoMap.delete] using ih
      · have h3 : ¬ k' = x := fun h => h2 h.symm
        simp [GoMap.delete, ih, h2, GoMap.get, h3]
    · by_cases h2 : k' = x
      · subst h2
        simp [GoMap.delete, h1, GoMap.get]
      · simp [GoMap.delete, h1, GoMap.get, h2, ih]

theorem GoMap.get_set {V : Type} (m : GoMap V) (k : String) (v : V) (x : String) :
    GoMap.get (GoMap.set m k v) x = if k = x then some v else GoMap.get m x := by
  unfold GoMap.set
  by_cases h : k = x
  · simp [GoMap.get, h]
  · have h2 : ¬ x = k := fun h3 => h h3.symm
    simp [GoMap.get, h, GoMap.get_delete, h2]

theorem GoMap.mem_keys_iff {V : Type} (m : GoMap V) (x : String) :
    x ∈ GoMap.keys m ↔ GoMap.get m x ≠ none := by
  induction m with
  | nil => simp [GoMap.keys, GoMap.get]
  | cons e m ih =>
    obtain ⟨k', v⟩ := e
    unfold GoMap.keys at ih ⊢
    by_cases h : k' = x
    · simp [GoMap.get, h]
    · have h2 : ¬ x = k' := fun h3 => h h3.symm
      simp [GoMap.get, h, h2, ih]

/-- A map filled from a list, later entries overwriting earlier ones: absent keys. -/
theorem GoMap.get_fill_eq_none {α V : Type} (key : α → String) (val : α → V) (xs : List α) :
    ∀ (m : GoMap V) (x : String),
      GoMap.get (xs.foldl (fun m a => GoMap.set m (key a) (val a)) m) x = none ↔
        GoMap.get m x = none ∧ ∀ a ∈ xs, key a ≠ x := by
  induction xs with
  | nil => intro m x; simp
  | cons a xs ih =>
    intro m x
    rw [List.foldl_cons, ih, GoMap.get_set]
    by_cases h : key a = x
    · simp [h]
    · simp [h]

/-- A map filled from a list: a key outside the list keeps its value. -/
theorem GoMap.get_fill_of_not_mem {α V : Type} (key : α → String) (val : α → V)
    (xs : List α) :
    ∀ (m : GoMap V) (x : String), (∀ a ∈ xs, key a ≠ x) →
      GoMap.get (xs.foldl (fun m a => GoMap.set m (key a) (val a)) m) x = GoMap.get m x := by
  induction xs with
  | nil => intro m x _; rfl
  | cons a xs ih =>
    intro m x h
    rw [List.foldl_cons, ih _ _ (fun b hb => h b (List.mem_cons_of_mem _ hb)), GoMap.get_set]
    simp [h a (List.mem_cons_self _ _)]

/-- A map filled from a list: a value found comes from the map before or from the list. -/
theorem GoMap.get_fill_some {α V : Type} (key : α → String) (val : α → V) (xs : List α) :
    ∀ (m : GoMap V) (x : String) (v : V),
      GoMap.get (xs.foldl (fun m a => GoMap.set m (key a) (val a)) m) x = some v →
        GoMap.get m x = some v ∨ ∃ a ∈ xs, key a = x ∧ val a = v := by
  induction xs with
  | nil => intro m x v h; exact Or.inl h
  | cons a xs ih =>
    intro m x v h
    rw [List.foldl_cons] at h
    rcases ih _ _ _ h with h1 | ⟨b, hb, hk, hv⟩
    · rw [GoMap.get_set] at h1
      by_cases h2 : key a = x
      · rw [if_pos h2] at h1
        exact Or.inr ⟨a, List.mem_cons_self _ _, h2, Option.some.inj h1⟩
      · rw [if_neg h2] at h1
        exact Or.inl h1
    · exact Or.inr ⟨b, List.mem_cons_of_mem _ hb, hk, hv⟩

/-- A map filled from a list with pairwise different keys holds every entry of the list. -/
theorem GoMap.get_fill_of_mem {α V : Type} (key : α → String) (val : α → V) (xs : List α) :
    ∀ (m : GoMap V), (xs.map key).Nodup → ∀ a ∈ xs,
      GoMap.get (xs.foldl (fun m a => GoMap.set m (key a) (val a)) m) (key a) =
        some (val a) := by
  induction xs with
  | nil => intro m _ a ha; exact absurd ha (List.not_mem_nil _)
  | cons b xs ih =>
    intro m hnd a ha
    rw [List.map_cons, List.nodup_cons] at hnd
    rw [List.foldl_cons]
    rcases List.mem_cons.1 ha with rfl | ha'
    · rw [GoMap.get_fill_of_not_mem, GoMap.get_set, if_pos rfl]
      intro c hc hkey
      exact hnd.1 (hkey ▸ List.mem_map_of_mem key hc)
    · exact ih _ hnd.2 a ha'

/-! ## The propagation pass -/

theorem isChangedFromImports_iff (pkgPath : String) (imports : List (String × Package))
    (changedMods changedPackages : StringSet) :
    isChangedFromImports pkgPath imports changedMods changedPackages = true ↔
      ∃ e ∈ imports, ImportHit changedMods changedPackages e := by
  induction imports with
  | nil => simp [isChangedFromImports]
  | cons e rest ih =>
    obtain ⟨importPath, importPkg⟩ := e
    unfold isChangedFromImports
    by_cases h1 : importPath ∈ changedPackages
    · simp only [h1, if_true, true_iff]
      exact ⟨_, List.mem_cons_self _ _, Or.inl h1⟩
    · simp only [h1, if_false]
      cases hm : importPkg.Module with
      | none =>
        simp only [ih, List.mem_cons, exists_eq_or_imp, ImportHit, h1, hm, false_or]
        simp
      | some mod =>
        by_cases h2 : mod.Path ∈ changedMods
        · simp only [h2, if_true, true_iff]
          exact ⟨_, List.mem_cons_self _ _, Or.inr ⟨mod, hm, h2⟩⟩
        · simp only [h2, if_false, ih, List.mem_cons, exists_eq_or_imp, ImportHit, h1, hm,
            false_or]
          simp [h2]

theorem mem_step (changedMods changedPackages : StringSet) (pkg : Package) (x : String) :
    x ∈ GetChangedPackages.step changedMods changedPackages pkg ↔
      x ∈ changedPackages ∨ (x = pkg.PkgPath ∧
        isChangedFromImports pkg.PkgPath pkg.Imports changedMods changedPackages = true) := by
  unfold GetChangedPackages.step
  by_cases h1 : pkg.PkgPath ∈ changedPackages
  · simp only [h1, if_true]
    exact ⟨Or.inl, fun h => h.elim id (fun h2 => h2.1 ▸ h1)⟩
  · by_cases h2 : isChangedFromImports pkg.PkgPath pkg.Imports changedMods changedPackages = true
    · simp [h1, h2, StringSet.mem_add]
    · simp [h1, h2]

theorem propagate_cons (pkg : Package) (pkgs : List Package) (changedMods cp : StringSet) :
    GetChangedPackages.propagate (pkg :: pkgs) changedMods cp =
      GetChangedPackages.propagate pkgs changedMods
        (GetChangedPackages.step changedMods cp pkg) := rfl

theorem propagate_append (pre post : List Package) (changedMods cp : StringSet) :
    GetChangedPackages.propagate (pre ++ post) changedMods cp =
      GetChangedPackages.propagate post changedMods
        (GetChangedPackages.propagate pre changedMods cp) := by
  simp [GetChangedPackages.propagate, List.foldl_append]

/-- The pass only adds: what is in the starting set is in the result. -/
theorem mem_propagate_of_mem (pkgs : List Package) (changedMods : StringSet) :
    ∀ (cp : StringSet) (x : String), x ∈ cp →
      x ∈ GetChangedPackages.propagate pkgs changedMods cp := by
  induction pkgs with
  | nil => intro cp x h; exact h
  | cons pkg rest ih =>
    intro cp x h
    rw [propagate_cons]
    exact ih _ x ((mem_step _ _ _ _).2 (Or.inl h))

/-- What the pass adds are paths of packages of the sequence. -/
theorem mem_propagate_cases (pkgs : List Package) (changedMods : StringSet) :
    ∀ (cp : StringSet) (x : String), x ∈ GetChangedPackages.propagate pkgs changedMods cp →
      x ∈ cp ∨ x ∈ pkgPaths pkgs := by
  induction pkgs with
  | nil => intro cp x h; exact Or.inl h
  | cons pkg rest ih =>
    intro cp x h
    rw [propagate_cons] at h
    rcases ih _ x h with h1 | h1
    · rcases (mem_step _ _ _ _).1 h1 with h2 | h2
      · exact Or.inl h2
      · exact Or.inr (by simp [pkgPaths, h2.1])
    · exact Or.inr (by simp only [pkgPaths, List.map_cons, List.mem_cons]; exact Or.inr h1)

/-- What `depsFirstFrom` checks of a package inside the rest. -/
theorem depsFirstFrom_spec (all : List String) (pre : List Package) :
    ∀ (seen : List String) (pkg : Package) (post : List Package),
      depsFirstFrom all seen (pre ++ pkg :: post) = true →
      ∀ e ∈ pkg.Imports, e.1 ∈ all → e.1 ∈ seen ++ pkgPaths pre := by
  induction pre with
  | nil =>
    intro seen pkg post h e he hall
    simp only [List.nil_append, depsFirstFrom, Bool.and_eq_true, List.all_eq_true] at h
    have h1 := h.1 e he
    simp only [hall, decide_True, Bool.not_true, Bool.false_or, decide_eq_true_eq] at h1
    simpa [pkgPaths] using h1
  | cons q pre ih =>
    intro seen pkg post h e he hall
    simp only [List.cons_append, depsFirstFrom, Bool.and_eq_true] at h
    have h1 := ih _ pkg post h.2 e he hall
    simpa [pkgPaths, List.append_assoc] using h1

/-- The ordering precondition, for a package inside the sequence. -/
theorem DepsFirst.earlier {pre post : List Package} {pkg : Package}
    (h : DepsFirst (pre ++ pkg :: post)) {e : String × Package} (he : e ∈ pkg.Imports)
    (hin : e.1 ∈ pkgPaths (pre ++ pkg :: post)) : e.1 ∈ pkgPaths pre := by
  have := depsFirstFrom_spec _ pre [] pkg post h e he hin
  simpa using this

/-- Under the preconditions the result of the pass is closed under dependents. -/
theorem propagate_closed (pkgs : List Package) (changedMods directChanged : StringSet)
    (huniq : UniquePaths pkgs) (hord : DepsFirst pkgs)
    (P : Package) (hP : P ∈ pkgs) (e : String × Package) (he : e ∈ P.Imports)
    (hit : ImportHit changedMods (GetChangedPackages.propagate pkgs changedMods directChanged) e) :
    P.PkgPath ∈ GetChangedPackages.propagate pkgs changedMods directChanged := by
  obtain ⟨pre, post, rfl⟩ := List.append_of_mem hP
  rw [propagate_append, propagate_cons] at hit ⊢
  apply mem_propagate_of_mem
  rw [mem_step]
  by_cases hin : P.PkgPath ∈ GetChangedPackages.propagate pre changedMods directChanged
  · exact Or.inl hin
  · refine Or.inr ⟨rfl, ?_⟩
    rw [isChangedFromImports_iff]
    refine ⟨e, he, ?_⟩
    rcases hit with h1 | h1
    · left
      rw [← propagate_cons] at h1
      rcases mem_propagate_cases _ _ _ _ h1 with h2 | h2
      · exact h2
      · exfalso
        have h3 : e.1 ∈ pkgPaths pre :=
          DepsFirst.earlier hord he (by
            simp only [pkgPaths, List.map_append, List.mem_append] at h2 ⊢
            exact Or.inr h2)
        unfold UniquePaths at huniq
        simp only [pkgPaths, List.map_append] at huniq
        exact (List.disjoint_of_nodup_append huniq) h3 h2
    · exact Or.inr h1

/-- A pass over packages none of which changes the set returns the set. -/
theorem propagate_eq_self (pkgs : List Package) (changedMods cp : StringSet)
    (h : ∀ pkg ∈ pkgs, GetChangedPackages.step changedMods cp pkg = cp) :
    GetChangedPackages.propagate pkgs changedMods cp = cp := by
  induction pkgs with
  | nil => rfl
  | cons pkg rest ih =>
    rw [propagate_cons, h pkg (List.mem_cons_self _ _)]
    exact ih (fun q hq => h q (List.mem_cons_of_mem _ hq))

/-! ### C1 -/

/-- C1. Under the ordering precondition (unique package paths, every import that is a package
of the sequence is strictly earlier) the result `R` of the loop of `GetChangedPackages` is
closed under dependents: a package of the sequence with an import whose path is in `R`, or
whose backing module is in `changedMods`, is in `R`; and a second pass from `R` returns `R`,
it adds no package. -/
theorem C1_single_pass_fixed_point (pkgs : List Package)
    (changedMods directChanged : StringSet)
    (huniq : UniquePaths pkgs) (hord : DepsFirst pkgs) :
    (∀ P ∈ pkgs, ∀ e ∈ P.Imports,
        (e.1 ∈ GetChangedPackages.propagate pkgs changedMods directChanged ∨
          ∃ mod, e.2.Module = some mod ∧ mod.Path ∈ changedMods) →
        P.PkgPath ∈ GetChangedPackages.propagate pkgs changedMods directChanged) ∧
      GetChangedPackages.propagate pkgs changedMods
          (GetChangedPackages.propagate pkgs changedMods directChanged) =
        GetChangedPackages.propagate pkgs changedMods directChanged := by
  have hclosed := propagate_closed pkgs changedMods directChanged huniq hord
  refine ⟨fun P hP e he hit => hclosed P hP e he hit, ?_⟩
  apply propagate_eq_self
  intro pkg hpkg
  unfold GetChangedPackages.step
  by_cases h1 : pkg.PkgPath ∈ GetChangedPackages.propagate pkgs changedMods directChanged
  · simp [h1]
  · have h2 : ¬ isChangedFromImports pkg.PkgPath pkg.Imports changedMods
        (GetChangedPackages.propagate pkgs changedMods directChanged) = true := by
      rw [isChangedFromImports_iff]
      rintro ⟨e, he, hit⟩
      exact h1 (hclosed pkg hpkg e he hit)
    simp [h1, h2]

/-- C1 on the graph pkgC imports pkgB imports pkgA with pkgA directly changed: the
preconditions hold and the result is pkgA, pkgB, pkgC. -/
theorem C1_single_pass_fixed_point_witness :
    UniquePaths [pkgA, pkgB, pkgC] ∧ DepsFirst [pkgA, pkgB, pkgC] ∧
      GetChangedPackages.propagate [pkgA, pkgB, pkgC] [] ["pkgA"] = ["pkgA", "pkgB", "pkgC"] ∧
      ((∀ P ∈ [pkgA, pkgB, pkgC], ∀ e ∈ P.Imports,
        (e.1 ∈ GetChangedPackages.propagate [pkgA, pkgB, pkgC] [] ["pkgA"] ∨
          ∃ mod, e.2.Module = some mod ∧ mod.Path ∈ ([] : StringSet)) →
        P.PkgPath ∈ GetChangedPackages.propagate [pkgA, pkgB, pkgC] [] ["pkgA"]) ∧
      GetChangedPackages.propagate [pkgA, pkgB, pkgC] []
          (GetChangedPackages.propagate [pkgA, pkgB, pkgC] [] ["pkgA"]) =
        GetChangedPackages.propagate [pkgA, pkgB, pkgC] [] ["pkgA"]) :=
  ⟨by decide, by decide, by decide,
    C1_single_pass_fixed_point [pkgA, pkgB, pkgC] [] ["pkgA"] (by decide) (by decide)⟩

/-- A package of the sequence with a hit among its imports, at the start or at the end of the
pass, is in the result; no ordering is needed when the hit is there at the start. -/
theorem mem_propagate_of_hit_start (pkgs : List Package) (changedMods cp : StringSet)
    (P : Package) (hP : P ∈ pkgs) (e : String × Package) (he : e ∈ P.Imports)
    (hit : ImportHit changedMods cp e) :
    P.PkgPath ∈ GetChangedPackages.propagate pkgs changedMods cp := by
  obtain ⟨pre, post, rfl⟩ := List.append_of_mem hP
  rw [propagate_append, propagate_cons]
  apply mem_propagate_of_mem
  rw [mem_step]
  by_cases hin : P.PkgPath ∈ GetChangedPackages.propagate pre changedMods cp
  · exact Or.inl hin
  · refine Or.inr ⟨rfl, ?_⟩
    rw [isChangedFromImports_iff]
    refine ⟨e, he, ?_⟩
    rcases hit with h1 | h1
    · exact Or.inl (mem_propagate_of_mem _ _ _ _ h1)
    · exact Or.inr h1

/-- The pass is monotone in the starting set. -/
theorem propagate_mono (pkgs : List Package) (changedMods : StringSet) :
    ∀ (cp cp' : StringSet), (∀ y, y ∈ cp → y ∈ cp') →
      ∀ y, y ∈ GetChangedPackages.propagate pkgs changedMods cp →
        y ∈ GetChangedPackages.propagate pkgs changedMods cp' := by
  induction pkgs with
  | nil => intro cp cp' h y hy; exact h y hy
  | cons pkg rest ih =>
    intro cp cp' h y hy
    rw [propagate_cons] at hy ⊢
    refine ih _ _ ?_ y hy
    intro z hz
    rw [mem_step] at hz ⊢
    rcases hz with hz | ⟨rfl, hz⟩
    · exact Or.inl (h z hz)
    · refine Or.inr ⟨rfl, ?_⟩
      rw [isChangedFromImports_iff] at hz ⊢
      obtain ⟨e, he, hit⟩ := hz
      exact ⟨e, he, hit.imp (h _) id⟩

/-! ### C2 -/

/-- C2, as stated, fails: in the ordered sequence consisting of local/p alone, local/p imports
the third-party package q, q imports r, and r is backed by the changed module
example.com/modr; r is reachable from local/p, yet the pass returns the empty set. -/
theorem C2_counterexample :
    UniquePaths [localP] ∧ DepsFirst [localP] ∧ localP ∈ [localP] ∧
      Reaches localP thirdR ∧
      (∃ mod, thirdR.Module = some mod ∧ mod.Path ∈ (["example.com/modr"] : StringSet)) ∧
      GetChangedPackages.propagate [localP] ["example.com/modr"] [] = [] ∧
      localP.PkgPath ∉ GetChangedPackages.propagate [localP] ["example.com/modr"] [] :=
  ⟨by decide, by decide, List.Mem.head _,
    Reaches.step (p := localP) (e := ("example.com/modq/q", thirdQ)) (List.Mem.head _)
      (Reaches.edge (p := thirdQ) (e := ("example.com/modr/r", thirdR)) (List.Mem.head _)),
    ⟨⟨"example.com/modr", "v1.1.0"⟩, rfl, by decide⟩, by decide, by decide⟩

/-- C2, amended. For a correctly ordered sequence, a package of it that reaches a package
backed by a module in `changedMods` through a chain of import edges whose packages, the last
one apart, are all packages of the sequence, is in the result of the pass. -/
theorem C2_transitive_through_sequence (pkgs : List Package)
    (changedMods directChanged : StringSet)
    (huniq : UniquePaths pkgs) (hord : DepsFirst pkgs)
    (P : Package) (hreach : ReachesChangedModule pkgs changedMods P) :
    P.PkgPath ∈ GetChangedPackages.propagate pkgs changedMods directChanged := by
  induction hreach with
  | direct hp he hm hmod =>
    exact propagate_closed pkgs changedMods directChanged huniq hord _ hp _ he
      (Or.inr ⟨_, hm, hmod⟩)
  | via hp he hq hpath _ ih =>
    exact propagate_closed pkgs changedMods directChanged huniq hord _ hp _ he
      (Or.inl (hpath ▸ ih))

/-- C2 amended, on the sequence local/p, local/p2 where local/p2 has local/p among its imports
and local/p has q of the changed module example.com/modq: both are in the result. -/
theorem C2_transitive_through_sequence_witness :
    UniquePaths [localP, localP2] ∧ DepsFirst [localP, localP2] ∧
      ReachesChangedModule [localP, localP2] ["example.com/modq"] localP2 ∧
      localP2.PkgPath ∈
        GetChangedPackages.propagate [localP, localP2] ["example.com/modq"] [] :=
  have hreach : ReachesChangedModule [localP, localP2] ["example.com/modq"] localP2 :=
    ReachesChangedModule.via (p := localP2) (q := localP) (e := ("local/p", localP))
      (List.Mem.tail _ (List.Mem.head _)) (List.Mem.head _) (List.Mem.head _) rfl
      (ReachesChangedModule.direct (p := localP) (e := ("example.com/modq/q", thirdQ))
        (m := ⟨"example.com/modq", "v1.0.0"⟩) (List.Mem.head _) (List.Mem.head _) rfl
        (by decide))
  ⟨by decide, by decide, hreach,
    C2_transitive_through_sequence [localP, localP2] ["example.com/modq"] []
      (by decide) (by decide) localP2 hreach⟩

/-! ### C3 -/

/-- Every element of the result was in the starting set or is the path of a package of the
sequence with a hit, at the end of the pass, among its imports. -/
theorem mem_propagate_reason (pkgs : List Package) (changedMods : StringSet) :
    ∀ (cp : StringSet) (x : String), x ∈ GetChangedPackages.propagate pkgs changedMods cp →
      x ∈ cp ∨ ∃ P ∈ pkgs, P.PkgPath = x ∧ ∃ e ∈ P.Imports,
        ImportHit changedMods (GetChangedPackages.propagate pkgs changedMods cp) e := by
  induction pkgs with
  | nil => intro cp x h; exact Or.inl h
  | cons pkg rest ih =>
    intro cp x h
    rw [propagate_cons] at h ⊢
    rcases ih _ x h with h1 | ⟨P, hP, hx, e, he, hit⟩
    · rcases (mem_step _ _ _ _).1 h1 with h2 | ⟨rfl, h2⟩
      · exact Or.inl h2
      · right
        obtain ⟨e, he, hit⟩ := (isChangedFromImports_iff _ _ _ _).1 h2
        refine ⟨pkg, List.mem_cons_self _ _, rfl, e, he, ?_⟩
        rcases hit with h3 | h3
        · exact Or.inl (mem_propagate_of_mem _ _ _ _ ((mem_step _ _ _ _).2 (Or.inl h3)))
        · exact Or.inr h3
    · exact Or.inr ⟨P, List.mem_cons_of_mem _ hP, hx, e, he, hit⟩

/-- With nothing directly changed and no changed module the pass returns the empty set. -/
theorem propagate_nil_nil (pkgs : List Package) :
    GetChangedPackages.propagate pkgs [] [] = [] := by
  apply propagate_eq_self
  intro pkg _
  have h : ¬ isChangedFromImports pkg.PkgPath pkg.Imports [] [] = true := by
    rw [isChangedFromImports_iff]
    rintro ⟨e, _, hit | ⟨mod, _, hmod⟩⟩
    · exact absurd hit (List.not_mem_nil _)
    · exact absurd hmod (List.not_mem_nil _)
  simp [GetChangedPackages.step, h]

/-- C3. No spurious results, for every sequence, ordered or not: every path in the result of
the pass is in `directChanged`, or is the path of a package of the sequence one of whose direct
imports has its path in the result, or is the path of a package of the sequence one of whose
direct imports is backed by a module in `changedMods`. With `directChanged` and `changedMods`
both empty the result is empty. -/
theorem C3_no_spurious_results (pkgs : List Package) (changedMods directChanged : StringSet) :
    (∀ x ∈ GetChangedPackages.propagate pkgs changedMods directChanged,
        x ∈ directChanged ∨
        (∃ P ∈ pkgs, P.PkgPath = x ∧ ∃ e ∈ P.Imports,
          e.1 ∈ GetChangedPackages.propagate pkgs changedMods directChanged) ∨
        (∃ P ∈ pkgs, P.PkgPath = x ∧ ∃ e ∈ P.Imports,
          ∃ mod, e.2.Module = some mod ∧ mod.Path ∈ changedMods)) ∧
      GetChangedPackages.propagate pkgs [] [] = [] := by
  constructor
  · intro x hx
    rcases mem_propagate_reason pkgs changedMods directChanged x hx with
      h | ⟨P, hP, hPx, e, he, hit | hit⟩
    · exact Or.inl h
    · exact Or.inr (Or.inl ⟨P, hP, hPx, e, he, hit⟩)
    · exact Or.inr (Or.inr ⟨P, hP, hPx, e, he, hit⟩)
  · exact propagate_nil_nil pkgs

/-! ### C9 -/

/-- C9. Monotonicity in the directly changed set, for every sequence, ordered or not: the
result of the pass started from `directChanged` with `x` added contains the result started
from `directChanged`. -/
theorem C9_monotone_in_directChanged (pkgs : List Package)
    (changedMods directChanged : StringSet) (x : String) :
    ∀ y, y ∈ GetChangedPackages.propagate pkgs changedMods directChanged →
      y ∈ GetChangedPackages.propagate pkgs changedMods (StringSet.add directChanged x) :=
  propagate_mono pkgs changedMods directChanged (StringSet.add directChanged x)
    (fun y hy => (StringSet.mem_add _ _ _).2 (Or.inl hy))

/-- C9 on the graph pkgA, pkgB, pkgC with pkgA directly changed and pkgX added: pkgC is in
both results. -/
theorem C9_monotone_in_directChanged_witness :
    "pkgC" ∈ GetChangedPackages.propagate [pkgA, pkgB, pkgC] [] ["pkgA"] ∧
      "pkgC" ∈ GetChangedPackages.propagate [pkgA, pkgB, pkgC] []
        (StringSet.add ["pkgA"] "pkgX") :=
  ⟨by decide,
    C9_monotone_in_directChanged [pkgA, pkgB, pkgC] [] ["pkgA"] "pkgX" "pkgC" (by decide)⟩

/-! ### C10 -/

/-- C10, as stated, fails: on the graph pkgX, pkgY with pkgX backed by module M and with
no imports, pkgY importing pkgX, `changedMods` containing M alone and nothing directly changed,
the pass returns pkgY alone: pkgX, backed by the changed module, is not in the result. -/
theorem C10_counterexample :
    pkgX.Module = some ⟨"M", "v1"⟩ ∧ pkgX.Imports = [] ∧ pkgY.Imports = [("pkgX", pkgX)] ∧
      GetChangedPackages.propagate [pkgX, pkgY] ["M"] [] = ["pkgY"] ∧
      pkgX.PkgPath ∉ GetChangedPackages.propagate [pkgX, pkgY] ["M"] [] :=
  ⟨rfl, rfl, rfl, by decide, by decide⟩

/-- C10, amended. On every graph pkgX, pkgY with pkgX backed by module M and without imports,
pkgY importing pkgX, `changedMods` containing M alone and nothing directly changed, the pass
returns pkgY alone; in general, for every sequence, every package of the sequence that
directly imports a package backed by a module in `changedMods` is in the result. -/
theorem C10_module_triggered (pkgX pkgY : Package) (M : packages.Module)
    (hM : pkgX.Module = some M) (hX : pkgX.Imports = [])
    (hY : (pkgX.PkgPath, pkgX) ∈ pkgY.Imports) :
    GetChangedPackages.propagate [pkgX, pkgY] [M.Path] [] = [pkgY.PkgPath] ∧
      ∀ (pkgs : List Package) (changedMods directChanged : StringSet),
        ∀ P ∈ pkgs, ∀ e ∈ P.Imports, ∀ mod, e.2.Module = some mod → mod.Path ∈ changedMods →
          P.PkgPath ∈ GetChangedPackages.propagate pkgs changedMods directChanged := by
  constructor
  · have h1 : isChangedFromImports pkgY.PkgPath pkgY.Imports [M.Path] [] = true :=
      (isChangedFromImports_iff _ _ _ _).2
        ⟨_, hY, Or.inr ⟨M, hM, List.mem_singleton_self _⟩⟩
    simp [GetChangedPackages.propagate, GetChangedPackages.step, hX, isChangedFromImports, h1,
      StringSet.add]
  · intro pkgs changedMods directChanged P hP e he mod hm hmod
    exact mem_propagate_of_hit_start pkgs changedMods directChanged P hP e he
      (Or.inr ⟨mod, hm, hmod⟩)

/-- C10 amended, on the example graph pkgX, pkgY. -/
theorem C10_module_triggered_witness :
    pkgX.Module = some ⟨"M", "v1"⟩ ∧ pkgX.Imports = [] ∧
      (pkgX.PkgPath, pkgX) ∈ pkgY.Imports ∧
      GetChangedPackages.propagate [pkgX, pkgY] ["M"] [] = ["pkgY"] :=
  ⟨rfl, rfl, List.Mem.head _,
    (C10_module_triggered pkgX pkgY ⟨"M", "v1"⟩ rfl rfl (List.Mem.head _)).1⟩

/-! ## The go.mod diff -/

theorem oldReplaceMap_eq_none (rs : List modfile.Replace) (x : String) :
    GoMap.get (changedModsFromReplace.oldReplaceMap rs) x = none ↔
      x ∉ rs.map (fun r => r.Old.Path) := by
  have h := GoMap.get_fill_eq_none (fun r : modfile.Replace => r.Old.Path)
    (fun r : modfile.Replace => r.New) rs [] x
  simp only [GoMap.get, true_and] at h
  unfold changedModsFromReplace.oldReplaceMap
  rw [h]
  simp only [List.mem_map, not_exists, not_and]

theorem oldReplaceMap_of_mem (rs : List modfile.Replace)
    (hnd : (rs.map (fun r => r.Old.Path)).Nodup) (r : modfile.Replace) (hr : r ∈ rs) :
    GoMap.get (changedModsFromReplace.oldReplaceMap rs) r.Old.Path = some r.New :=
  GoMap.get_fill_of_mem (fun r : modfile.Replace => r.Old.Path)
    (fun r : modfile.Replace => r.New) rs [] hnd r hr

theorem oldModMap_eq_none (rs : List modfile.Require) (x : String) :
    GoMap.get (getChangedMods.oldModMap rs) x = none ↔ x ∉ rs.map (fun r => r.Mod.Path) := by
  have h := GoMap.get_fill_eq_none (fun r : modfile.Require => r.Mod.Path)
    (fun r : modfile.Require => r) rs [] x
  simp only [GoMap.get, true_and] at h
  unfold getChangedMods.oldModMap
  rw [h]
  simp only [List.mem_map, not_exists, not_and]

theorem oldModMap_of_mem (rs : List modfile.Require)
    (hnd : (rs.map (fun r => r.Mod.Path)).Nodup) (r : modfile.Require) (hr : r ∈ rs) :
    GoMap.get (getChangedMods.oldModMap rs) r.Mod.Path = some r :=
  GoMap.get_fill_of_mem (fun r : modfile.Require => r.Mod.Path)
    (fun r : modfile.Require => r) rs [] hnd r hr

theorem oldModMap_some (rs : List modfile.Require) (x : String) (o : modfile.Require)
    (h : GoMap.get (getChangedMods.oldModMap rs) x = some o) : o ∈ rs ∧ o.Mod.Path = x := by
  rcases GoMap.get_fill_some (fun r : modfile.Require => r.Mod.Path)
    (fun r : modfile.Require => r) rs [] x o h with h1 | ⟨a, ha, hk, hv⟩
  · simp [GoMap.get] at h1
  · subst hv
    exact ⟨ha, hk⟩

theorem replaceStep_get (st : StringSet × GoMap module.Version) (r : modfile.Replace)
    (x : String) :
    GoMap.get (changedModsFromReplace.step st r).2 x =
      if x = r.Old.Path then none else GoMap.get st.2 x := by
  unfold changedModsFromReplace.step
  cases h : GoMap.get st.2 r.Old.Path with
  | none =>
    simp only [h]
    by_cases hx : x = r.Old.Path
    · simp [hx, h]
    · simp [hx]
  | some v => simp [h, GoMap.get_delete]

theorem mem_replaceStep (st : StringSet × GoMap module.Version) (r : modfile.Replace)
    (x : String) :
    x ∈ (changedModsFromReplace.step st r).1 ↔
      x ∈ st.1 ∨ (x = r.Old.Path ∧ GoMap.get st.2 r.Old.Path ≠ some r.New) := by
  unfold changedModsFromReplace.step
  cases h : GoMap.get st.2 r.Old.Path with
  | none => simp [h, StringSet.mem_add]
  | some v =>
    by_cases hv : v = r.New
    · simp [h, hv]
    · simp [h, hv, StringSet.mem_add]

theorem replaceLoop_get (rs : List modfile.Replace) :
    ∀ (st : StringSet × GoMap module.Version) (x : String),
      GoMap.get (rs.foldl changedModsFromReplace.step st).2 x =
        if x ∈ rs.map (fun r => r.Old.Path) then none else GoMap.get st.2 x := by
  induction rs with
  | nil => intro st x; simp
  | cons r rs ih =>
    intro st x
    rw [List.foldl_cons, ih, replaceStep_get]
    by_cases h1 : x ∈ rs.map (fun r => r.Old.Path)
    · simp [h1]
    · by_cases h2 : x = r.Old.Path
      · simp [h2]
      · simp [h1, h2]

theorem mem_replaceLoop (rs : List modfile.Replace) :
    ∀ (st : StringSet × GoMap module.Version), (rs.map (fun r => r.Old.Path)).Nodup →
      ∀ x, x ∈ (rs.foldl changedModsFromReplace.step st).1 ↔
        x ∈ st.1 ∨ ∃ r ∈ rs, r.Old.Path = x ∧ GoMap.get st.2 x ≠ some r.New := by
  induction rs with
  | nil => intro st _ x; simp
  | cons r rs ih =>
    intro st hnd x
    rw [List.map_cons, List.nodup_cons] at hnd
    rw [List.foldl_cons, ih _ hnd.2, mem_replaceStep]
    have hrest : ∀ q ∈ rs, q.Old.Path = x →
        GoMap.get (changedModsFromReplace.step st r).2 x = GoMap.get st.2 x := by
      intro q hq hqx
      rw [replaceStep_get, if_neg]
      intro hx
      exact hnd.1 (List.mem_map.2 ⟨q, hq, hqx.trans hx⟩)
    constructor
    · rintro ((h | ⟨rfl, h⟩) | ⟨q, hq, hqx, h⟩)
      · exact Or.inl h
      · exact Or.inr ⟨r, List.mem_cons_self _ _, rfl, h⟩
      · exact Or.inr ⟨q, List.mem_cons_of_mem _ hq, hqx, by rwa [hrest q hq hqx] at h⟩
    · rintro (h | ⟨q, hq, hqx, h⟩)
      · exact Or.inl (Or.inl h)
      · rcases List.mem_cons.1 hq with rfl | hq'
        · exact Or.inl (Or.inr ⟨hqx.symm, hqx ▸ h⟩)
        · exact Or.inr ⟨q, hq', hqx, by rwa [hrest q hq' hqx]⟩

/-- Membership in the result of `changedModsFromReplace`, in terms of the old map. -/
theorem mem_changedModsFromReplace (cur old : modfile.File)
    (hcur : UniqueReplaceSources cur) (x : String) :
    x ∈ changedModsFromReplace cur old ↔
      (∃ r ∈ cur.Replace, r.Old.Path = x ∧
        GoMap.get (changedModsFromReplace.oldReplaceMap old.Replace) x ≠ some r.New) ∨
      (x ∉ replaceSources cur ∧
        GoMap.get (changedModsFromReplace.oldReplaceMap old.Replace) x ≠ none) := by
  unfold changedModsFromReplace
  simp only [StringSet.mem_foldl_add, GoMap.mem_keys_iff, replaceLoop_get]
  rw [mem_replaceLoop _ _ hcur]
  simp only [List.not_mem_nil, false_or]
  unfold replaceSources
  by_cases h : x ∈ cur.Replace.map (fun r => r.Old.Path)
  · simp [h]
  · simp [h]

/-- Membership in the result of `changedModsFromReplace`: added, updated or removed. -/
theorem mem_changedModsFromReplace_iff (cur old : modfile.File)
    (hcur : UniqueReplaceSources cur) (hold : UniqueReplaceSources old) (p : String) :
    p ∈ changedModsFromReplace cur old ↔
      (p ∈ replaceSources cur ∧ p ∉ replaceSources old) ∨
      (∃ rn ∈ cur.Replace, ∃ ro ∈ old.Replace,
        rn.Old.Path = p ∧ ro.Old.Path = p ∧ rn.New ≠ ro.New) ∨
      (p ∈ replaceSources old ∧ p ∉ replaceSources cur) := by
  rw [mem_changedModsFromReplace cur old hcur]
  constructor
  · rintro (⟨r, hr, hrp, hne⟩ | ⟨hnot, hne⟩)
    · by_cases hin : p ∈ replaceSources old
      · obtain ⟨ro, hro, hrop⟩ := List.mem_map.1 hin
        have hget := oldReplaceMap_of_mem old.Replace hold ro hro
        rw [hrop] at hget
        rw [hget] at hne
        exact Or.inr (Or.inl ⟨r, hr, ro, hro, hrp, hrop, fun h => hne (by rw [h])⟩)
      · exact Or.inl ⟨List.mem_map.2 ⟨r, hr, hrp⟩, hin⟩
    · refine Or.inr (Or.inr ⟨?_, hnot⟩)
      by_contra hin
      exact hne ((oldReplaceMap_eq_none _ _).2 hin)
  · rintro (⟨hin, hnot⟩ | ⟨rn, hrn, ro, hro, hrnp, hrop, hne⟩ | ⟨hin, hnot⟩)
    · obtain ⟨r, hr, hrp⟩ := List.mem_map.1 hin
      refine Or.inl ⟨r, hr, hrp, ?_⟩
      rw [(oldReplaceMap_eq_none _ _).2 hnot]
      exact fun h => Option.noConfusion h
    · have hget := oldReplaceMap_of_mem old.Replace hold ro hro
      rw [hrop] at hget
      refine Or.inl ⟨rn, hrn, hrnp, ?_⟩
      rw [hget]
      exact fun h => hne (Option.some.inj h).symm
    · refine Or.inr ⟨hnot, ?_⟩
      intro h
      exact (oldReplaceMap_eq_none _ _).1 h hin

theorem mem_requireLoop (m : GoMap modfile.Require) (rs : List modfile.Require) :
    ∀ (cm : StringSet) (x : String), x ∈ rs.foldl (getChangedMods.step m) cm ↔
      x ∈ cm ∨ ∃ r ∈ rs, r.Mod.Path = x ∧
        ∃ o, GoMap.get m x = some o ∧ r.Mod.Version ≠ o.Mod.Version := by
  induction rs with
  | nil => intro cm x; simp
  | cons r rs ih =>
    intro cm x
    rw [List.foldl_cons, ih]
    have hstep : x ∈ getChangedMods.step m cm r ↔
        x ∈ cm ∨ (r.Mod.Path = x ∧
          ∃ o, GoMap.get m x = some o ∧ r.Mod.Version ≠ o.Mod.Version) := by
      unfold getChangedMods.step
      cases h : GoMap.get m r.Mod.Path with
      | none =>
        simp only [h, iff_self_or]
        rintro ⟨rfl, o, ho, _⟩
        rw [h] at ho
        exact Option.noConfusion ho
      | some old =>
        by_cases hv : r.Mod.Version = old.Mod.Version
        · simp only [h, hv, ne_eq, not_true_eq_false, if_false, iff_self_or]
          rintro ⟨rfl, o, ho, hne⟩
          rw [h] at ho
          exact absurd (by rw [← Option.some.inj ho]) hne
        · simp only [h, ne_eq, hv, not_false_eq_true, if_true, StringSet.mem_add]
          constructor
          · rintro (h1 | rfl)
            · exact Or.inl h1
            · exact Or.inr ⟨rfl, old, h, hv⟩
          · rintro (h1 | ⟨rfl, _⟩)
            · exact Or.inl h1
            · exact Or.inr rfl
    rw [hstep]
    simp only [List.mem_cons, exists_eq_or_imp, or_assoc]

/-- When both go.mod files are read, `getChangedMods` returns the replace diff followed by
the require pass. -/
theorem getChangedMods_ok (env : Env) (modPath repoDir fromRef toRef : String)
    (cur old : modfile.File)
    (hread : readModFiles env repoDir modPath fromRef toRef = .ok (cur, old)) :
    getChangedMods env modPath repoDir fromRef toRef =
      .ok (cur.Require.foldl (getChangedMods.step (getChangedMods.oldModMap old.Require))
        (changedModsFromReplace cur old)) := by
  unfold getChangedMods
  rw [hread]

/-- Membership in the require pass started from the empty set. -/
theorem mem_requirePass_iff (cur old : modfile.File) (hold : UniqueRequires old)
    (cm : StringSet) (p : String) :
    p ∈ cur.Require.foldl (getChangedMods.step (getChangedMods.oldModMap old.Require)) cm ↔
      p ∈ cm ∨ ∃ rn ∈ cur.Require, ∃ ro ∈ old.Require,
        rn.Mod.Path = p ∧ ro.Mod.Path = p ∧ rn.Mod.Version ≠ ro.Mod.Version := by
  rw [mem_requireLoop]
  constructor
  · rintro (h | ⟨r, hr, hrp, o, ho, hne⟩)
    · exact Or.inl h
    · obtain ⟨ho1, ho2⟩ := oldModMap_some _ _ _ ho
      exact Or.inr ⟨r, hr, o, ho1, hrp, ho2, hne⟩
  · rintro (h | ⟨rn, hrn, ro, hro, hrnp, hrop, hne⟩)
    · exact Or.inl h
    · have hget := oldModMap_of_mem old.Require hold ro hro
      rw [hrop] at hget
      exact Or.inr ⟨rn, hrn, hrnp, ro, hget, hne⟩

/-! ### C4 -/

/-- C4. Replacement diff characterisation: when the replace lists of the old and of the new
go.mod have at most one entry per source module path, a module path is in the result of
`changedModsFromReplace new old` exactly when it is a replace source in new but not in old
(added), or a replace source in both with different targets (updated), or a replace source in
old but not in new (removed). -/
theorem C4_replace_diff_characterisation (cur old : modfile.File)
    (hcur : UniqueReplaceSources cur) (hold : UniqueReplaceSources old) (p : String) :
    p ∈ changedModsFromReplace cur old ↔
      (p ∈ replaceSources cur ∧ p ∉ replaceSources old) ∨
      (∃ rn ∈ cur.Replace, ∃ ro ∈ old.Replace,
        rn.Old.Path = p ∧ ro.Old.Path = p ∧ rn.New ≠ ro.New) ∨
      (p ∈ replaceSources old ∧ p ∉ replaceSources cur) :=
  mem_changedModsFromReplace_iff cur old hcur hold p

/-- C4 on the example: old has the replace directive A => A v1, new has none; the result
is A alone. -/
theorem C4_replace_diff_characterisation_witness :
    UniqueReplaceSources modEmpty ∧ UniqueReplaceSources modReplaceA ∧
      changedModsFromReplace modEmpty modReplaceA = ["A"] ∧
      ("A" ∈ changedModsFromReplace modEmpty modReplaceA ↔
        ("A" ∈ replaceSources modEmpty ∧ "A" ∉ replaceSources modReplaceA) ∨
        (∃ rn ∈ modEmpty.Replace, ∃ ro ∈ modReplaceA.Replace,
          rn.Old.Path = "A" ∧ ro.Old.Path = "A" ∧ rn.New ≠ ro.New) ∨
        ("A" ∈ replaceSources modReplaceA ∧ "A" ∉ replaceSources modEmpty)) :=
  ⟨by decide, by decide, by decide,
    C4_replace_diff_characterisation modEmpty modReplaceA (by decide) (by decide) "A"⟩

/-! ### C5 -/

/-- C5. Requirement diff characterisation: when the old and the new go.mod are read, have no
replace directives and at most one requirement per module path, `getChangedMods` returns a
set in which a module path lies exactly when it is required in both files with different
versions; a module required only in old, or only in new, is not in the result. -/
theorem C5_require_diff_characterisation (env : Env)
    (modPath repoDir fromRef toRef : String) (cur old : modfile.File)
    (hread : readModFiles env repoDir modPath fromRef toRef = .ok (cur, old))
    (hcurNoReplace : cur.Replace = []) (holdNoReplace : old.Replace = [])
    (hcur : UniqueRequires cur) (hold : UniqueRequires old) :
    ∃ r, getChangedMods env modPath repoDir fromRef toRef = .ok r ∧
      ∀ p, (p ∈ r ↔ ∃ rn ∈ cur.Require, ∃ ro ∈ old.Require,
          rn.Mod.Path = p ∧ ro.Mod.Path = p ∧ rn.Mod.Version ≠ ro.Mod.Version) ∧
        (p ∉ requirePaths cur → p ∉ r) ∧ (p ∉ requirePaths old → p ∉ r) := by
  refine ⟨_, getChangedMods_ok env modPath repoDir fromRef toRef cur old hread, ?_⟩
  have hnil : changedModsFromReplace cur old = [] := by
    simp [changedModsFromReplace, changedModsFromReplace.oldReplaceMap, hcurNoReplace,
      holdNoReplace, GoMap.keys]
  intro p
  rw [hnil]
  have hiff := mem_requirePass_iff cur old hold [] p
  simp only [List.not_mem_nil, false_or] at hiff
  refine ⟨hiff, ?_, ?_⟩
  · intro hnot hp
    obtain ⟨rn, hrn, _, _, hrnp, _, _⟩ := hiff.1 hp
    exact hnot (List.mem_map.2 ⟨rn, hrn, hrnp⟩)
  · intro hnot hp
    obtain ⟨_, _, ro, hro, _, hrop, _⟩ := hiff.1 hp
    exact hnot (List.mem_map.2 ⟨ro, hro, hrop⟩)

/-- C5 on the example: old requires lib at v1, new requires lib at v2; the result is lib
alone. -/
theorem C5_require_diff_characterisation_witness :
    getChangedMods (exampleEnv [("old:go.mod", modLibV1), ("new:go.mod", modLibV2)])
        "go.mod" "/repo" "old" "new" = .ok ["lib"] ∧
      ∃ r, getChangedMods (exampleEnv [("old:go.mod", modLibV1), ("new:go.mod", modLibV2)])
          "go.mod" "/repo" "old" "new" = .ok r ∧
        ∀ p, (p ∈ r ↔ ∃ rn ∈ modLibV2.Require, ∃ ro ∈ modLibV1.Require,
            rn.Mod.Path = p ∧ ro.Mod.Path = p ∧ rn.Mod.Version ≠ ro.Mod.Version) ∧
          (p ∉ requirePaths modLibV2 → p ∉ r) ∧ (p ∉ requirePaths modLibV1 → p ∉ r) :=
  ⟨rfl,
    C5_require_diff_characterisation
      (exampleEnv [("old:go.mod", modLibV1), ("new:go.mod", modLibV2)])
      "go.mod" "/repo" "old" "new" modLibV2 modLibV1 rfl rfl rfl (by decide) (by decide)⟩

/-! ### C6 -/

/-- C6. No-op manifest edit: when both references hold the same go.mod `S`, with at most one
requirement per module path and at most one replace directive per source module path,
`getChangedMods` returns the empty set: both the replace diff of `S` with itself and the
require pass of `S` against itself are empty. -/
theorem C6_noop_manifest_edit (env : Env) (modPath repoDir fromRef toRef : String)
    (S : modfile.File)
    (hread : readModFiles env repoDir modPath fromRef toRef = .ok (S, S))
    (hreq : UniqueRequires S) (hrep : UniqueReplaceSources S) :
    getChangedMods env modPath repoDir fromRef toRef = .ok [] ∧
      changedModsFromReplace S S = [] ∧
      S.Require.foldl (getChangedMods.step (getChangedMods.oldModMap S.Require)) [] = [] := by
  have h1 : changedModsFromReplace S S = [] := by
    rw [List.eq_nil_iff_forall_not_mem]
    intro p hp
    rcases (mem_changedModsFromReplace_iff S S hrep hrep p).1 hp with
      ⟨h, hn⟩ | ⟨rn, hrn, ro, hro, hrnp, hrop, hne⟩ | ⟨h, hn⟩
    · exact hn h
    · have e1 := oldReplaceMap_of_mem S.Replace hrep rn hrn
      have e2 := oldReplaceMap_of_mem S.Replace hrep ro hro
      rw [hrnp] at e1
      rw [hrop, e1] at e2
      exact hne (Option.some.inj e2)
    · exact hn h
  have h2 : S.Require.foldl (getChangedMods.step (getChangedMods.oldModMap S.Require)) []
      = [] := by
    rw [List.eq_nil_iff_forall_not_mem]
    intro p hp
    rcases (mem_requirePass_iff S S hreq [] p).1 hp with
      h | ⟨rn, hrn, ro, hro, hrnp, hrop, hne⟩
    · exact absurd h (List.not_mem_nil _)
    · have e1 := oldModMap_of_mem S.Require hreq rn hrn
      have e2 := oldModMap_of_mem S.Require hreq ro hro
      rw [hrnp] at e1
      rw [hrop, e1] at e2
      exact hne (by rw [Option.some.inj e2])
  refine ⟨?_, h1, h2⟩
  rw [getChangedMods_ok env modPath repoDir fromRef toRef S S hread, h1, h2]

/-- C6 on the example: both references hold the go.mod requiring lib at v1 and replacing A
by A v1. -/
theorem C6_noop_manifest_edit_witness :
    UniqueRequires modLibReplaceA ∧ UniqueReplaceSources modLibReplaceA ∧
      getChangedMods
        (exampleEnv [("old:go.mod", modLibReplaceA), ("new:go.mod", modLibReplaceA)])
        "go.mod" "/repo" "old" "new" = .ok [] :=
  ⟨by decide, by decide,
    (C6_noop_manifest_edit
      (exampleEnv [("old:go.mod", modLibReplaceA), ("new:go.mod", modLibReplaceA)])
      "go.mod" "/repo" "old" "new" modLibReplaceA rfl (by decide) (by decide)).1⟩

/-! ## Direct changes -/

theorem fileInPkg_iff (env : Env) (pkg : Package) (repoDir path : String) :
    fileInPkg env pkg repoDir path = true ↔
      env.Join repoDir path ∈ pkg.GoFiles ∨ env.Join repoDir path ∈ pkg.OtherFiles ∨
        env.Join repoDir path ∈ pkg.EmbedFiles := by
  simp [fileInPkg, or_assoc]

theorem fileInPkg_iff_owned (env : Env) (pkg : Package) (repoDir path : String) :
    fileInPkg env pkg repoDir path = true ↔ env.Join repoDir path ∈ ownedFiles pkg := by
  simp [fileInPkg, ownedFiles, or_assoc]

/-- The inner loop marks the first package owning the file. -/
theorem markOwner_eq (env : Env) (pkgs : List Package) (repoDir path : String)
    (cp : StringSet) :
    collectChanges.markOwner env pkgs repoDir path cp =
      match pkgs.find? (fun pkg => fileInPkg env pkg repoDir path) with
      | some pkg => StringSet.add cp pkg.PkgPath
      | none => cp := by
  induction pkgs with
  | nil => rfl
  | cons pkg rest ih =>
    unfold collectChanges.markOwner
    by_cases h : fileInPkg env pkg repoDir path = true
    · simp [h, List.find?_cons]
    · simp only [h, if_false, List.find?_cons]
      simpa using ih

theorem mem_markOwner (env : Env) (pkgs : List Package) (repoDir path : String)
    (cp : StringSet) (x : String) :
    x ∈ collectChanges.markOwner env pkgs repoDir path cp ↔
      x ∈ cp ∨ ∃ pkg, pkgs.find? (fun pkg => fileInPkg env pkg repoDir path) = some pkg ∧
        pkg.PkgPath = x := by
  rw [markOwner_eq]
  cases h : pkgs.find? (fun pkg => fileInPkg env pkg repoDir path) with
  | none => simp
  | some pkg =>
    simp only [StringSet.mem_add, Option.some.injEq, exists_eq_left']
    constructor
    · rintro (h1 | h1)
      · exact Or.inl h1
      · exact Or.inr h1.symm
    · rintro (h1 | h1)
      · exact Or.inl h1
      · exact Or.inr h1.symm

theorem markOwner_unowned (env : Env) (pkgs : List Package) (repoDir path : String)
    (cp : StringSet) (h : ∀ pkg ∈ pkgs, fileInPkg env pkg repoDir path = false) :
    collectChanges.markOwner env pkgs repoDir path cp = cp := by
  rw [markOwner_eq]
  have : pkgs.find? (fun pkg => fileInPkg env pkg repoDir path) = none := by
    rw [List.find?_eq_none]
    intro pkg hpkg
    simp [h pkg hpkg]
  rw [this]

/-- The first owner of a file is a package of the sequence that owns it. -/
theorem find_owner_some (env : Env) (pkgs : List Package) (repoDir path : String)
    (pkg : Package)
    (h : pkgs.find? (fun pkg => fileInPkg env pkg repoDir path) = some pkg) :
    pkg ∈ pkgs ∧ fileInPkg env pkg repoDir path = true := by
  have h1 := List.find?_some h
  exact ⟨List.mem_of_find?_eq_some h, h1⟩

/-- An owned file has a first owner. -/
theorem find_owner_of_mem (env : Env) (pkgs : List Package) (repoDir path : String)
    (P : Package) (hP : P ∈ pkgs) (hown : fileInPkg env P repoDir path = true) :
    ∃ pkg, pkgs.find? (fun pkg => fileInPkg env pkg repoDir path) = some pkg := by
  cases h : pkgs.find? (fun pkg => fileInPkg env pkg repoDir path) with
  | some pkg => exact ⟨pkg, rfl⟩
  | none =>
    rw [List.find?_eq_none] at h
    exact absurd hown (h P hP)

/-- The changed packages after the files of a list, from a starting set. -/
theorem mem_markAll (env : Env) (pkgs : List Package) (repoDir : String)
    (files : List String) :
    ∀ (cp : StringSet) (x : String),
      x ∈ files.foldl (fun cp path => collectChanges.markOwner env pkgs repoDir path cp) cp ↔
        x ∈ cp ∨ ∃ path ∈ files, ∃ pkg,
          pkgs.find? (fun pkg => fileInPkg env pkg repoDir path) = some pkg ∧
            pkg.PkgPath = x := by
  induction files with
  | nil => intro cp x; simp
  | cons path rest ih =>
    intro cp x
    rw [List.foldl_cons, ih, mem_markOwner]
    simp only [List.mem_cons, exists_eq_or_imp, or_assoc]

theorem getChangedMods_ok_of_read (env : Env) (modPath repoDir fromRef toRef : String)
    (h : ∃ fs, readModFiles env repoDir modPath fromRef toRef = .ok fs) :
    ∃ ms, getChangedMods env modPath repoDir fromRef toRef = .ok ms := by
  obtain ⟨⟨cur, old⟩, hfs⟩ := h
  exact ⟨_, getChangedMods_ok env modPath repoDir fromRef toRef cur old hfs⟩

/-- When every go.mod among the files is diffed without error the outer loop returns, with
the changed packages computed file by file. -/
theorem collectChanges_loop_ok (env : Env) (pkgs : List Package)
    (repoDir fromRef toRef : String) (files : List String) :
    ∀ (cp cm : StringSet),
      (∀ path ∈ files, env.Base path = "go.mod" →
        ∃ ms, getChangedMods env path repoDir fromRef toRef = .ok ms) →
      ∃ cm1, collectChanges.loop env pkgs repoDir fromRef toRef files cp cm =
        .ok (files.foldl (fun cp path => collectChanges.markOwner env pkgs repoDir path cp) cp,
          cm1) := by
  induction files with
  | nil => intro cp cm _; exact ⟨cm, rfl⟩
  | cons path rest ih =>
    intro cp cm h
    have hrest : ∀ q ∈ rest, env.Base q = "go.mod" →
        ∃ ms, getChangedMods env q repoDir fromRef toRef = .ok ms :=
      fun q hq => h q (List.mem_cons_of_mem _ hq)
    unfold collectChanges.loop
    by_cases hb : env.Base path = "go.mod"
    · obtain ⟨ms, hms⟩ := h path (List.mem_cons_self _ _) hb
      simp only [hb, if_true, hms, List.foldl_cons]
      exact ih _ ms hrest
    · simp only [hb, if_false, List.foldl_cons]
      exact ih _ cm hrest

/-- What the outer loop returns when it returns: every go.mod among the files was diffed
without error, the changed packages are computed file by file, and the changed modules are
those of the last go.mod, or the starting ones when there is none. -/
theorem collectChanges_loop_result (env : Env) (pkgs : List Package)
    (repoDir fromRef toRef : String) (files : List String) :
    ∀ (cp cm cp1 cm1 : StringSet),
      collectChanges.loop env pkgs repoDir fromRef toRef files cp cm = .ok (cp1, cm1) →
      (∀ path ∈ files, env.Base path = "go.mod" →
        ∃ ms, getChangedMods env path repoDir fromRef toRef = .ok ms) ∧
      cp1 = files.foldl
        (fun cp path => collectChanges.markOwner env pkgs repoDir path cp) cp ∧
      (lastGoMod env files = none → cm1 = cm) ∧
      (∀ p, lastGoMod env files = some p →
        getChangedMods env p repoDir fromRef toRef = .ok cm1) := by
  induction files with
  | nil =>
    intro cp cm cp1 cm1 h
    simp only [collectChanges.loop, Except.ok.injEq, Prod.mk.injEq] at h
    refine ⟨fun _ hp => absurd hp (List.not_mem_nil _), h.1.symm, fun _ => h.2.symm, ?_⟩
    intro p hp
    simp [lastGoMod] at hp
  | cons path rest ih =>
    intro cp cm cp1 cm1 h
    unfold collectChanges.loop at h
    by_cases hb : env.Base path = "go.mod"
    · simp only [hb, if_true] at h
      cases hms : getChangedMods env path repoDir fromRef toRef with
      | error err => simp [hms] at h
      | ok ms =>
        simp only [hms] at h
        obtain ⟨h1, h2, h3, h4⟩ := ih _ _ _ _ h
        refine ⟨?_, h2, ?_, ?_⟩
        · intro q hq hqb
          rcases List.mem_cons.1 hq with rfl | hq'
          · exact ⟨ms, hms⟩
          · exact h1 q hq' hqb
        · intro hnone
          cases hl : lastGoMod env rest with
          | none => simp [lastGoMod, hl, hb] at hnone
          | some p => simp [lastGoMod, hl] at hnone
        · intro p hp
          cases hl : lastGoMod env rest with
          | none =>
            simp only [lastGoMod, hl, hb, if_true, Option.some.injEq] at hp
            rw [← hp, hms, h3 hl]
          | some q =>
            simp only [lastGoMod, hl, Option.some.injEq] at hp
            exact h4 p (hp ▸ hl)
    · simp only [hb, if_false] at h
      obtain ⟨h1, h2, h3, h4⟩ := ih _ _ _ _ h
      refine ⟨?_, h2, ?_, ?_⟩
      · intro q hq hqb
        rcases List.mem_cons.1 hq with rfl | hq'
        · exact absurd hqb hb
        · exact h1 q hq' hqb
      · intro hnone
        cases hl : lastGoMod env rest with
        | none => exact h3 hl
        | some p => simp [lastGoMod, hl] at hnone
      · intro p hp
        cases hl : lastGoMod env rest with
        | none => simp [lastGoMod, hl, hb] at hp
        | some q =>
          simp only [lastGoMod, hl, Option.some.injEq] at hp
          exact h4 p (hp ▸ hl)

/-! ### C7 -/

/-- C7. Direct-change detection: when each file path is owned by at most one package and
every go.mod among the changed files is read at both references, `collectChanges` returns,
and a package path is in the returned `changedPackages` exactly when a package of the sequence
with that path has `repoDir` joined with some changed path among its `GoFiles`, `OtherFiles`
or `EmbedFiles`; a changed path owned by no package adds nothing: without it the same
`changedPackages` is returned. -/
theorem C7_direct_change_detection (env : Env) (pkgs : List Package)
    (changedFiles : List String) (repoDir fromRef toRef : String)
    (hown : OwnedByAtMostOne pkgs)
    (hread : ∀ path ∈ changedFiles, env.Base path = "go.mod" →
      ∃ fs, readModFiles env repoDir path fromRef toRef = .ok fs) :
    ∃ cp cm, collectChanges env changedFiles pkgs repoDir fromRef toRef = .ok (cp, cm) ∧
      (∀ x, x ∈ cp ↔ ∃ P ∈ pkgs, P.PkgPath = x ∧ ∃ path ∈ changedFiles,
        env.Join repoDir path ∈ P.GoFiles ∨ env.Join repoDir path ∈ P.OtherFiles ∨
          env.Join repoDir path ∈ P.EmbedFiles) ∧
      (∀ pre f post, changedFiles = pre ++ f :: post →
        (∀ P ∈ pkgs, fileInPkg env P repoDir f = false) →
        ∃ cm1, collectChanges env (pre ++ post) pkgs repoDir fromRef toRef = .ok (cp, cm1)) := by
  have hmods : ∀ path ∈ changedFiles, env.Base path = "go.mod" →
      ∃ ms, getChangedMods env path repoDir fromRef toRef = .ok ms :=
    fun path hp hb => getChangedMods_ok_of_read env path repoDir fromRef toRef (hread path hp hb)
  obtain ⟨cm1, h⟩ := collectChanges_loop_ok env pkgs repoDir fromRef toRef changedFiles [] []
    hmods
  refine ⟨_, cm1, h, ?_, ?_⟩
  · intro x
    rw [mem_markAll]
    simp only [List.not_mem_nil, false_or]
    constructor
    · rintro ⟨path, hpath, pkg, hfind, hx⟩
      obtain ⟨hmem, hfile⟩ := find_owner_some env pkgs repoDir path pkg hfind
      exact ⟨pkg, hmem, hx, path, hpath, (fileInPkg_iff _ _ _ _).1 hfile⟩
    · rintro ⟨P, hP, hx, path, hpath, hfiles⟩
      have hfileP : fileInPkg env P repoDir path = true := (fileInPkg_iff _ _ _ _).2 hfiles
      obtain ⟨pkg, hfind⟩ := find_owner_of_mem env pkgs repoDir path P hP hfileP
      obtain ⟨hmem, hfile⟩ := find_owner_some env pkgs repoDir path pkg hfind
      have hsame : pkg.PkgPath = P.PkgPath :=
        hown pkg hmem P hP _ ((fileInPkg_iff_owned _ _ _ _).1 hfile)
          ((fileInPkg_iff_owned _ _ _ _).1 hfileP)
      exact ⟨path, hpath, pkg, hfind, hsame.trans hx⟩
  · intro pre f post hsplit hun
    subst hsplit
    have hmods2 : ∀ path ∈ pre ++ post, env.Base path = "go.mod" →
        ∃ ms, getChangedMods env path repoDir fromRef toRef = .ok ms := by
      intro path hp hb
      refine hmods path ?_ hb
      rcases List.mem_append.1 hp with h1 | h1
      · exact List.mem_append_left _ h1
      · exact List.mem_append_right _ (List.mem_cons_of_mem _ h1)
    obtain ⟨cm2, h2⟩ := collectChanges_loop_ok env pkgs repoDir fromRef toRef (pre ++ post)
      [] [] hmods2
    refine ⟨cm2, ?_⟩
    unfold collectChanges
    rw [h2]
    simp only [List.foldl_append, List.foldl_cons,
      markOwner_unowned env pkgs repoDir f _ hun]

/-- C7 on the example: the changed files are go.mod, pkgA/file.go and README.md; pkgA owns
/repo/pkgA/file.go; `collectChanges` returns pkgA as only changed package. -/
theorem C7_direct_change_detection_witness :
    OwnedByAtMostOne [pkgAWithFile, localL] ∧
      collectChanges envLibBump ["go.mod", "pkgA/file.go", "README.md"]
        [pkgAWithFile, localL] "/repo" "old" "new" = .ok (["pkgA"], ["lib"]) ∧
      ∃ cp cm, collectChanges envLibBump ["go.mod", "pkgA/file.go", "README.md"]
          [pkgAWithFile, localL] "/repo" "old" "new" = .ok (cp, cm) ∧
        ∀ x, x ∈ cp ↔ ∃ P ∈ [pkgAWithFile, localL], P.PkgPath = x ∧
          ∃ path ∈ ["go.mod", "pkgA/file.go", "README.md"],
            envLibBump.Join "/repo" path ∈ P.GoFiles ∨
              envLibBump.Join "/repo" path ∈ P.OtherFiles ∨
              envLibBump.Join "/repo" path ∈ P.EmbedFiles :=
  have hread : ∀ path ∈ ["go.mod", "pkgA/file.go", "README.md"],
      envLibBump.Base path = "go.mod" →
        ∃ fs, readModFiles envLibBump "/repo" path "old" "new" = .ok fs := by
    intro path hp hb
    simp only [List.mem_cons, List.mem_singleton, List.not_mem_nil, or_false] at hp
    rcases hp with rfl | rfl | rfl
    · exact ⟨_, rfl⟩
    · exact absurd hb (by decide)
    · exact absurd hb (by decide)
  ⟨by decide, rfl,
    (C7_direct_change_detection envLibBump [pkgAWithFile, localL]
      ["go.mod", "pkgA/file.go", "README.md"] "/repo" "old" "new" (by decide) hread).imp
      (fun _ h => h.imp (fun _ h1 => ⟨h1.1, h1.2.1⟩))⟩

/-! ### C8 -/

/-- C8, as stated, fails: with two changed go.mod files the changed modules are those of the
last one in list order. Here a/go.mod bumps lib and b/go.mod is unchanged; local/l imports a
package of lib. For the list a/go.mod, b/go.mod nothing is returned; for the permuted list
local/l is returned. -/
theorem C8_counterexample :
    ["a/go.mod", "b/go.mod"].Perm ["b/go.mod", "a/go.mod"] ∧
      GetChangedPackages.fromChangedFiles envTwoGoMods ["a/go.mod", "b/go.mod"] [localL]
        "/repo" "old" "new" = .ok [] ∧
      GetChangedPackages.fromChangedFiles envTwoGoMods ["b/go.mod", "a/go.mod"] [localL]
        "/repo" "old" "new" = .ok ["local/l"] :=
  ⟨List.Perm.swap _ _ _, rfl, rfl⟩

/-- C8, amended. Order-independence when the last go.mod is the same: for every package
sequence, every changed-file list `L` and every permutation `L1` of `L` in which the last path
with base name go.mod is the same as in `L` (so whenever at most one path of `L` is a go.mod),
if `collectChanges` followed by the propagation loop returns a set for `L` then it returns a
set with the same package paths for `L1`. -/
theorem C8_order_independence (env : Env) (pkgs : List Package) (L L1 : List String)
    (repoDir fromRef toRef : String) (hperm : L.Perm L1)
    (hlast : lastGoMod env L = lastGoMod env L1) (r : List String)
    (hr : GetChangedPackages.fromChangedFiles env L pkgs repoDir fromRef toRef = .ok r) :
    ∃ r1, GetChangedPackages.fromChangedFiles env L1 pkgs repoDir fromRef toRef = .ok r1 ∧
      ∀ x, x ∈ r ↔ x ∈ r1 := by
  unfold GetChangedPackages.fromChangedFiles at hr ⊢
  cases hc : collectChanges env L pkgs repoDir fromRef toRef with
  | error err => simp [hc] at hr
  | ok res =>
    obtain ⟨cp, cm⟩ := res
    simp only [hc, Except.ok.injEq] at hr
    obtain ⟨hreads, hcp, hnone, hsome⟩ :=
      collectChanges_loop_result env pkgs repoDir fromRef toRef L [] [] cp cm hc
    have hreads1 : ∀ path ∈ L1, env.Base path = "go.mod" →
        ∃ ms, getChangedMods env path repoDir fromRef toRef = .ok ms :=
      fun path hp hb => hreads path (hperm.mem_iff.2 hp) hb
    obtain ⟨cm1, hc1⟩ := collectChanges_loop_ok env pkgs repoDir fromRef toRef L1 [] [] hreads1
    obtain ⟨_, _, hnone1, hsome1⟩ :=
      collectChanges_loop_result env pkgs repoDir fromRef toRef L1 [] [] _ cm1 hc1
    have hcm : cm1 = cm := by
      cases hl : lastGoMod env L with
      | none => rw [hnone hl, hnone1 (hlast ▸ hl)]
      | some p =>
        have e1 := hsome p hl
        have e2 := hsome1 p (hlast ▸ hl)
        rw [e1] at e2
        exact (Except.ok.inj e2).symm
    have hmem : ∀ y,
        y ∈ L.foldl (fun cp path => collectChanges.markOwner env pkgs repoDir path cp) [] ↔
        y ∈ L1.foldl (fun cp path => collectChanges.markOwner env pkgs repoDir path cp) [] := by
      intro y
      rw [mem_markAll, mem_markAll]
      simp only [List.not_mem_nil, false_or]
      constructor
      · rintro ⟨path, hp, h⟩
        exact ⟨path, hperm.mem_iff.1 hp, h⟩
      · rintro ⟨path, hp, h⟩
        exact ⟨path, hperm.mem_iff.2 hp, h⟩
    unfold collectChanges
    rw [hc1, hcm]
    refine ⟨_, rfl, ?_⟩
    intro x
    rw [← hr, hcp]
    exact ⟨propagate_mono pkgs cm _ _ (fun y => (hmem y).1) x,
      propagate_mono pkgs cm _ _ (fun y => (hmem y).2) x⟩

/-- C8 amended, on the example: the lists go.mod, l/l.go and l/l.go, go.mod give the same
result, local/l. -/
theorem C8_order_independence_witness :
    ["go.mod", "l/l.go"].Perm ["l/l.go", "go.mod"] ∧
      lastGoMod envLibBump ["go.mod", "l/l.go"] = lastGoMod envLibBump ["l/l.go", "go.mod"] ∧
      GetChangedPackages.fromChangedFiles envLibBump ["go.mod", "l/l.go"] [localL]
        "/repo" "old" "new" = .ok ["local/l"] ∧
      ∃ r1, GetChangedPackages.fromChangedFiles envLibBump ["l/l.go", "go.mod"] [localL]
          "/repo" "old" "new" = .ok r1 ∧
        ∀ x, x ∈ ["local/l"] ↔ x ∈ r1 :=
  ⟨List.Perm.swap _ _ _, by decide, rfl,
    C8_order_independence envLibBump [localL] ["go.mod", "l/l.go"] ["l/l.go", "go.mod"]
      "/repo" "old" "new" (List.Perm.swap _ _ _) (by decide) ["local/l"] rfl⟩

/-! ## The whole run -/

/-- No path after the last go.mod has base name go.mod. -/
theorem lastGoMod_eq_none (env : Env) (files : List String)
    (h : ∀ q ∈ files, env.Base q ≠ "go.mod") : lastGoMod env files = none := by
  induction files with
  | nil => rfl
  | cons q rest ih =>
    have h1 := ih (fun x hx => h x (List.mem_cons_of_mem _ hx))
    simp [lastGoMod, h1, h q (List.mem_cons_self _ _)]

/-- The last go.mod of a list split at it. -/
theorem lastGoMod_append (env : Env) (pre post : List String) (p : String)
    (hb : env.Base p = "go.mod") (hpost : ∀ q ∈ post, env.Base q ≠ "go.mod") :
    lastGoMod env (pre ++ p :: post) = some p := by
  induction pre with
  | nil => simp [lastGoMod, lastGoMod_eq_none env post hpost, hb]
  | cons q pre ih => simp [lastGoMod, ih]

/-- The first owner of a file, from the split of the sequence at it. -/
theorem find_owner_of_split (env : Env) (pre post : List Package) (P : Package)
    (repoDir path : String) (hpre : ∀ q ∈ pre, fileInPkg env q repoDir path = false)
    (hP : fileInPkg env P repoDir path = true) :
    (pre ++ P :: post).find? (fun pkg => fileInPkg env pkg repoDir path) = some P := by
  rw [List.find?_eq_some]
  refine ⟨hP, pre, post, rfl, ?_⟩
  intro q hq
  simp [hpre q hq]

/-- The split of the sequence at the first owner of a file. -/
theorem split_of_find_owner (env : Env) (pkgs : List Package) (P : Package)
    (repoDir path : String)
    (h : pkgs.find? (fun pkg => fileInPkg env pkg repoDir path) = some P) :
    ∃ pre post, pkgs = pre ++ P :: post ∧
      (∀ q ∈ pre, fileInPkg env q repoDir path = false) ∧
      fileInPkg env P repoDir path = true := by
  rw [List.find?_eq_some] at h
  obtain ⟨hP, pre, post, hsplit, hpre⟩ := h
  refine ⟨pre, post, hsplit, ?_, hP⟩
  intro q hq
  simpa using hpre q hq

/-! ### C11 -/

/-- C11. End-to-end composition: when the packages load, the absolute path is built, the
changed files are listed and `collectChanges` returns the directly changed packages and the
changed modules, `GetChangedPackages` returns the propagation loop applied to these two
sets. -/
theorem C11_end_to_end_composition (env : Env) (repoDir modDir fromRef toRef : String)
    (pkgs : List Package) (absDir : String) (changedFiles : List String)
    (changedPackages changedMods : StringSet)
    (hload : loadLocalPackages env modDir = .ok pkgs)
    (habs : env.Abs repoDir = .ok absDir)
    (hfiles : getChangedFiles env absDir fromRef toRef = .ok changedFiles)
    (hcollect : collectChanges env changedFiles pkgs absDir fromRef toRef =
      .ok (changedPackages, changedMods)) :
    GetChangedPackages env repoDir modDir fromRef toRef =
      .ok (GetChangedPackages.propagate pkgs changedMods changedPackages) := by
  unfold GetChangedPackages
  simp only [hload, habs, hfiles]
  unfold GetChangedPackages.fromChangedFiles
  rw [hcollect]

/-- C11 on the scenario: changed files go.mod and pkgA/file.go, go.mod requiring dep at v1
before and at v2 after, pkgA owning pkgA/file.go, pkgB having a package of dep among its
imports, pkgC having pkgB among its imports, in dependencies-first order: the returned set is
pkgA, pkgB, pkgC. -/
theorem C11_end_to_end_composition_witness :
    DepsFirst [scenarioPkgA, scenarioPkgB, scenarioPkgC] ∧
      getChangedFiles scenarioEnv "/repo" "old" "new" = .ok ["go.mod", "pkgA/file.go"] ∧
      collectChanges scenarioEnv ["go.mod", "pkgA/file.go"]
        [scenarioPkgA, scenarioPkgB, scenarioPkgC] "/repo" "old" "new" =
          .ok (["pkgA"], ["dep"]) ∧
      GetChangedPackages.propagate [scenarioPkgA, scenarioPkgB, scenarioPkgC] ["dep"] ["pkgA"] =
        ["pkgA", "pkgB", "pkgC"] ∧
      GetChangedPackages scenarioEnv "/repo" "/repo" "old" "new" =
        .ok ["pkgA", "pkgB", "pkgC"] ∧
      GetChangedPackages scenarioEnv "/repo" "/repo" "old" "new" =
        .ok (GetChangedPackages.propagate [scenarioPkgA, scenarioPkgB, scenarioPkgC]
          ["dep"] ["pkgA"]) :=
  ⟨by decide, rfl, rfl, by decide, rfl,
    C11_end_to_end_composition scenarioEnv "/repo" "/repo" "old" "new"
      [scenarioPkgA, scenarioPkgB, scenarioPkgC] "/repo" ["go.mod", "pkgA/file.go"]
      ["pkgA"] ["dep"] rfl rfl rfl rfl⟩

/-! ### C12 -/

/-- C12. Ownership tie-break: the packages `collectChanges` marks are exactly the first
owners, in sequence order, of the changed files; in particular, for a single changed file
listed by several packages, the first of them in the sequence is the only package marked, and
no later owner is. -/
theorem C12_first_owner_wins (env : Env) (pkgs : List Package) (changedFiles : List String)
    (repoDir fromRef toRef : String) (cp cm : StringSet)
    (h : collectChanges env changedFiles pkgs repoDir fromRef toRef = .ok (cp, cm)) :
    (∀ x, x ∈ cp ↔ ∃ path ∈ changedFiles, ∃ pre P post, pkgs = pre ++ P :: post ∧
        (∀ q ∈ pre, fileInPkg env q repoDir path = false) ∧
        fileInPkg env P repoDir path = true ∧ P.PkgPath = x) ∧
      (∀ path pre P post, changedFiles = [path] → pkgs = pre ++ P :: post →
        (∀ q ∈ pre, fileInPkg env q repoDir path = false) →
        fileInPkg env P repoDir path = true →
        cp = [P.PkgPath] ∧ ∀ Q ∈ post, Q.PkgPath ≠ P.PkgPath → Q.PkgPath ∉ cp) := by
  obtain ⟨_, hcp, _, _⟩ :=
    collectChanges_loop_result env pkgs repoDir fromRef toRef changedFiles [] [] cp cm h
  constructor
  · intro x
    rw [hcp, mem_markAll]
    simp only [List.not_mem_nil, false_or]
    constructor
    · rintro ⟨path, hpath, P, hfind, hx⟩
      obtain ⟨pre, post, hsplit, hpre, hP⟩ := split_of_find_owner env pkgs P repoDir path hfind
      exact ⟨path, hpath, pre, P, post, hsplit, hpre, hP, hx⟩
    · rintro ⟨path, hpath, pre, P, post, hsplit, hpre, hP, hx⟩
      refine ⟨path, hpath, P, ?_, hx⟩
      rw [hsplit]
      exact find_owner_of_split env pre post P repoDir path hpre hP
  · intro path pre P post hfiles hsplit hpre hP
    have hcp1 : cp = [P.PkgPath] := by
      rw [hcp, hfiles, hsplit, List.foldl_cons, List.foldl_nil, markOwner_eq,
        find_owner_of_split env pre post P repoDir path hpre hP]
      simp [StringSet.add]
    refine ⟨hcp1, ?_⟩
    intro Q _ hne hQ
    rw [hcp1, List.mem_singleton] at hQ
    exact hne hQ

/-- C12 on the example: the packages first and second both list /repo/shared/x.go; for the
changed file shared/x.go only first is marked. -/
theorem C12_first_owner_wins_witness :
    fileInPkg (exampleEnv []) ownerFirst "/repo" "shared/x.go" = true ∧
      fileInPkg (exampleEnv []) ownerSecond "/repo" "shared/x.go" = true ∧
      collectChanges (exampleEnv []) ["shared/x.go"] [ownerFirst, ownerSecond]
        "/repo" "old" "new" = .ok (["first"], []) ∧
      collectChanges (exampleEnv []) ["shared/x.go"] [ownerSecond, ownerFirst]
        "/repo" "old" "new" = .ok (["second"], []) ∧
      (["first"] = [ownerFirst.PkgPath] ∧
        ∀ Q ∈ [ownerSecond], Q.PkgPath ≠ ownerFirst.PkgPath →
          Q.PkgPath ∉ (["first"] : StringSet)) :=
  ⟨by decide, by decide, rfl, rfl,
    (C12_first_owner_wins (exampleEnv []) [ownerFirst, ownerSecond] ["shared/x.go"]
      "/repo" "old" "new" ["first"] [] rfl).2 "shared/x.go" [] ownerFirst [ownerSecond]
      rfl rfl (fun _ hq => absurd hq (List.not_mem_nil _)) (by decide)⟩

/-! ### C13 -/

/-- C13. The ordering precondition is necessary for the single pass: the sequence pkgC, pkgB,
pkgA lists pkgC before pkgB, which pkgC has among its imports, so it is not
dependencies-first; with pkgA directly changed the single pass returns pkgA and pkgB and omits
pkgC, while repeating the pass until no package is newly marked returns pkgA, pkgB and
pkgC, a set that a further pass leaves unchanged. -/
theorem C13_ordering_necessary :
    UniquePaths [pkgC, pkgB, pkgA] ∧ ¬ DepsFirst [pkgC, pkgB, pkgA] ∧
      GetChangedPackages.propagate [pkgC, pkgB, pkgA] [] ["pkgA"] = ["pkgA", "pkgB"] ∧
      "pkgC" ∉ GetChangedPackages.propagate [pkgC, pkgB, pkgA] [] ["pkgA"] ∧
      propagateUntilStable 3 [pkgC, pkgB, pkgA] [] ["pkgA"] = ["pkgA", "pkgB", "pkgC"] ∧
      "pkgC" ∈ propagateUntilStable 3 [pkgC, pkgB, pkgA] [] ["pkgA"] ∧
      GetChangedPackages.propagate [pkgC, pkgB, pkgA] []
        (propagateUntilStable 3 [pkgC, pkgB, pkgA] [] ["pkgA"]) =
          propagateUntilStable 3 [pkgC, pkgB, pkgA] [] ["pkgA"] :=
  ⟨by decide, by decide, by decide, by decide, by decide, by decide, by decide⟩

/-! ### C16 -/

/-- C16. When several changed paths have base name go.mod, the changed modules returned by
`collectChanges` are exactly the diff of the last such path in list order: the sets of the
earlier go.mod paths are overwritten, so a module reported only by an earlier go.mod is not
in the returned set. -/
theorem C16_last_gomod_wins (env : Env) (pkgs : List Package) (pre post : List String)
    (p : String) (repoDir fromRef toRef : String) (cp cm : StringSet)
    (hb : env.Base p = "go.mod") (hpost : ∀ q ∈ post, env.Base q ≠ "go.mod")
    (h : collectChanges env (pre ++ p :: post) pkgs repoDir fromRef toRef = .ok (cp, cm)) :
    getChangedMods env p repoDir fromRef toRef = .ok cm ∧
      ∀ m, (∀ ms, getChangedMods env p repoDir fromRef toRef = .ok ms → m ∉ ms) → m ∉ cm := by
  obtain ⟨_, _, _, hsome⟩ :=
    collectChanges_loop_result env pkgs repoDir fromRef toRef (pre ++ p :: post) [] [] cp cm h
  have hlast := hsome p (lastGoMod_append env pre post p hb hpost)
  exact ⟨hlast, fun m hm => hm cm hlast⟩

/-- C16 on the example: a/go.mod bumps lib, b/go.mod after it is unchanged; the returned
changed modules are empty and lib, reported by a/go.mod alone, is absent. -/
theorem C16_last_gomod_wins_witness :
    getChangedMods envTwoGoMods "a/go.mod" "/repo" "old" "new" = .ok ["lib"] ∧
      collectChanges envTwoGoMods (["a/go.mod"] ++ "b/go.mod" :: []) [localL]
        "/repo" "old" "new" = .ok ([], []) ∧
      (getChangedMods envTwoGoMods "b/go.mod" "/repo" "old" "new" = .ok [] ∧
        ∀ m, (∀ ms, getChangedMods envTwoGoMods "b/go.mod" "/repo" "old" "new" = .ok ms →
          m ∉ ms) → m ∉ ([] : StringSet)) :=
  ⟨rfl, rfl,
    C16_last_gomod_wins envTwoGoMods [localL] ["a/go.mod"] [] "b/go.mod" "/repo" "old" "new"
      [] [] (by decide) (fun _ hq => absurd hq (List.not_mem_nil _)) rfl⟩

/-! ### C17 -/

/-- C17. The uniqueness precondition of the go.mod diff is necessary: a go.mod with two
replace directives for the source module path A, diffed against itself, gives the set
containing A, and a go.mod requiring lib at two versions, diffed against itself, gives the set
containing lib. -/
theorem C17_uniqueness_necessary :
    ¬ UniqueReplaceSources modTwoReplacesA ∧
      changedModsFromReplace modTwoReplacesA modTwoReplacesA = ["A"] ∧
      getChangedMods
        (exampleEnv [("old:go.mod", modTwoReplacesA), ("new:go.mod", modTwoReplacesA)])
        "go.mod" "/repo" "old" "new" = .ok ["A"] ∧
      ¬ UniqueRequires modTwoRequiresLib ∧
      getChangedMods
        (exampleEnv [("old:go.mod", modTwoRequiresLib), ("new:go.mod", modTwoRequiresLib)])
        "go.mod" "/repo" "old" "new" = .ok ["lib"] :=
  ⟨by decide, by decide, rfl, by decide, rfl⟩

/-! ## Errors -/

theorem loadLocalPackages_check_ok_iff (pkgs : List Package) :
    loadLocalPackages.check pkgs = .ok () ↔ ∀ pkg ∈ pkgs, pkg.Errors = [] := by
  induction pkgs with
  | nil => simp [loadLocalPackages.check]
  | cons pkg rest ih =>
    unfold loadLocalPackages.check
    by_cases h : pkg.Errors = []
    · simp [h, ih]
    · have h1 : pkg.Errors.length ≠ 0 := fun h2 => h (List.length_eq_zero.1 h2)
      simp [h, h1]

theorem loadLocalPackages_ok_iff (env : Env) (modDir : String) (pkgs : List Package) :
    loadLocalPackages env modDir = .ok pkgs ↔
      env.Load modDir = .ok pkgs ∧ ∀ pkg ∈ pkgs, pkg.Errors = [] := by
  unfold loadLocalPackages
  cases hl : env.Load modDir with
  | error e => simp
  | ok ps =>
    cases hc : loadLocalPackages.check ps with
    | error e =>
      simp only [hc, Except.ok.injEq, false_iff, not_and, reduceCtorEq]
      rintro rfl hall
      rw [(loadLocalPackages_check_ok_iff ps).2 hall] at hc
      exact Except.noConfusion hc
    | ok u =>
      have hall := (loadLocalPackages_check_ok_iff ps).1 hc
      simp only [hc, Except.ok.injEq]
      constructor
      · rintro rfl
        exact ⟨rfl, hall⟩
      · exact fun h => h.1

theorem readModFiles_ok_iff (env : Env) (repoDir modPath fromRef toRef : String)
    (cur old : modfile.File) :
    readModFiles env repoDir modPath fromRef toRef = .ok (cur, old) ↔
      readModFileAtRef env repoDir modPath fromRef = .ok old ∧
        readModFileAtRef env repoDir modPath toRef = .ok cur := by
  unfold readModFiles
  cases h1 : readModFileAtRef env repoDir modPath fromRef with
  | error e => simp
  | ok o =>
    cases h2 : readModFileAtRef env repoDir modPath toRef with
    | error e => simp
    | ok c =>
      simp only [Except.ok.injEq, Prod.mk.injEq]
      exact ⟨fun h => ⟨h.2, h.1⟩, fun h => ⟨h.2, h.1⟩⟩

theorem readModFiles_of_getChangedMods_ok (env : Env)
    (modPath repoDir fromRef toRef : String) (ms : StringSet)
    (h : getChangedMods env modPath repoDir fromRef toRef = .ok ms) :
    ∃ cur old, readModFiles env repoDir modPath fromRef toRef = .ok (cur, old) := by
  unfold getChangedMods at h
  cases hr : readModFiles env repoDir modPath fromRef toRef with
  | error e => simp [hr] at h
  | ok fs => exact ⟨fs.1, fs.2, rfl⟩

/-- Every result is a value or an error. -/
theorem except_cases {α : Type} (x : Except String α) :
    (∃ e, x = .error e) ∨ ∃ a, x = .ok a := by
  cases x with
  | error e => exact Or.inl ⟨e, rfl⟩
  | ok a => exact Or.inr ⟨a, rfl⟩

/-- What has succeeded when `GetChangedPackages` returns a list. -/
theorem GetChangedPackages_ok (env : Env) (repoDir modDir fromRef toRef : String)
    (r : List String) (hr : GetChangedPackages env repoDir modDir fromRef toRef = .ok r) :
    ∃ pkgs absDir files cp cm, loadLocalPackages env modDir = .ok pkgs ∧
      env.Abs repoDir = .ok absDir ∧ getChangedFiles env absDir fromRef toRef = .ok files ∧
      collectChanges env files pkgs absDir fromRef toRef = .ok (cp, cm) ∧
      r = GetChangedPackages.propagate pkgs cm cp := by
  unfold GetChangedPackages at hr
  cases hl : loadLocalPackages env modDir with
  | error e => simp [hl] at hr
  | ok pkgs =>
    cases ha : env.Abs repoDir with
    | error e => simp [hl, ha] at hr
    | ok absDir =>
      cases hf : getChangedFiles env absDir fromRef toRef with
      | error e => simp [hl, ha, hf] at hr
      | ok files =>
        simp only [hl, ha, hf] at hr
        unfold GetChangedPackages.fromChangedFiles at hr
        cases hc : collectChanges env files pkgs absDir fromRef toRef with
        | error e => simp [hc] at hr
        | ok res =>
          obtain ⟨cp, cm⟩ := res
          simp only [hc, Except.ok.injEq] at hr
          exact ⟨pkgs, absDir, files, cp, cm, rfl, rfl, hf, hc, hr.symm⟩

/-! ### C15 -/

/-- C15. Input errors abort the run with no partial result. When `GetChangedPackages`
returns a package list, the packages were loaded and none carries errors, the changed files
were listed, and go.mod was read and parsed at both references for every changed path with
base name go.mod. So it returns an error, which carries no list, whenever package loading
fails, a loaded package carries errors, listing the changed files fails, or reading or
parsing go.mod fails at either reference for such a path. When all of these and
`filepath.Abs` succeed it returns a list. -/
theorem C15_input_errors_abort (env : Env) (repoDir modDir fromRef toRef : String) :
    (∀ r, GetChangedPackages env repoDir modDir fromRef toRef = .ok r →
      ∃ pkgs absDir files, env.Load modDir = .ok pkgs ∧ (∀ pkg ∈ pkgs, pkg.Errors = []) ∧
        env.Abs repoDir = .ok absDir ∧
        getChangedFiles env absDir fromRef toRef = .ok files ∧
        ∀ path ∈ files, env.Base path = "go.mod" →
          (∃ f, readModFileAtRef env absDir path fromRef = .ok f) ∧
          (∃ f, readModFileAtRef env absDir path toRef = .ok f)) ∧
    ((∃ e, env.Load modDir = .error e) →
      ∃ err, GetChangedPackages env repoDir modDir fromRef toRef = .error err) ∧
    (∀ pkgs, env.Load modDir = .ok pkgs → (∃ pkg ∈ pkgs, pkg.Errors ≠ []) →
      ∃ err, GetChangedPackages env repoDir modDir fromRef toRef = .error err) ∧
    (∀ absDir, env.Abs repoDir = .ok absDir →
      (∃ e, getChangedFiles env absDir fromRef toRef = .error e) →
      ∃ err, GetChangedPackages env repoDir modDir fromRef toRef = .error err) ∧
    (∀ absDir files path, env.Abs repoDir = .ok absDir →
      getChangedFiles env absDir fromRef toRef = .ok files → path ∈ files →
      env.Base path = "go.mod" →
      ((∃ e, readModFileAtRef env absDir path fromRef = .error e) ∨
        (∃ e, readModFileAtRef env absDir path toRef = .error e)) →
      ∃ err, GetChangedPackages env repoDir modDir fromRef toRef = .error err) ∧
    (∀ pkgs absDir files, env.Load modDir = .ok pkgs → (∀ pkg ∈ pkgs, pkg.Errors = []) →
      env.Abs repoDir = .ok absDir → getChangedFiles env absDir fromRef toRef = .ok files →
      (∀ path ∈ files, env.Base path = "go.mod" →
        (∃ f, readModFileAtRef env absDir path fromRef = .ok f) ∧
        (∃ f, readModFileAtRef env absDir path toRef = .ok f)) →
      ∃ r, GetChangedPackages env repoDir modDir fromRef toRef = .ok r) := by
  have hmain : ∀ r, GetChangedPackages env repoDir modDir fromRef toRef = .ok r →
      ∃ pkgs absDir files, env.Load modDir = .ok pkgs ∧ (∀ pkg ∈ pkgs, pkg.Errors = []) ∧
        env.Abs repoDir = .ok absDir ∧
        getChangedFiles env absDir fromRef toRef = .ok files ∧
        ∀ path ∈ files, env.Base path = "go.mod" →
          (∃ f, readModFileAtRef env absDir path fromRef = .ok f) ∧
          (∃ f, readModFileAtRef env absDir path toRef = .ok f) := by
    intro r hr
    obtain ⟨pkgs, absDir, files, cp, cm, hl, ha, hf, hc, _⟩ :=
      GetChangedPackages_ok env repoDir modDir fromRef toRef r hr
    obtain ⟨hload, herrs⟩ := (loadLocalPackages_ok_iff env modDir pkgs).1 hl
    obtain ⟨hreads, _, _, _⟩ :=
      collectChanges_loop_result env pkgs absDir fromRef toRef files [] [] cp cm hc
    refine ⟨pkgs, absDir, files, hload, herrs, ha, hf, ?_⟩
    intro path hp hb
    obtain ⟨ms, hms⟩ := hreads path hp hb
    obtain ⟨cur, old, hfs⟩ := readModFiles_of_getChangedMods_ok env path absDir fromRef toRef ms hms
    obtain ⟨h1, h2⟩ := (readModFiles_ok_iff env absDir path fromRef toRef cur old).1 hfs
    exact ⟨⟨old, h1⟩, ⟨cur, h2⟩⟩
  have herr : (∀ r, GetChangedPackages env repoDir modDir fromRef toRef ≠ .ok r) →
      ∃ err, GetChangedPackages env repoDir modDir fromRef toRef = .error err := by
    intro h
    rcases except_cases (GetChangedPackages env repoDir modDir fromRef toRef) with h1 | ⟨a, h1⟩
    · exact h1
    · exact absurd h1 (h a)
  refine ⟨hmain, ?_, ?_, ?_, ?_, ?_⟩
  · rintro ⟨e, he⟩
    apply herr
    intro r hr
    obtain ⟨pkgs, _, _, hl, _⟩ := hmain r hr
    rw [he] at hl
    exact Except.noConfusion hl
  · rintro pkgs hl ⟨pkg, hpkg, hne⟩
    apply herr
    intro r hr
    obtain ⟨pkgs1, _, _, hl1, herrs, _⟩ := hmain r hr
    rw [hl] at hl1
    have := Except.ok.inj hl1
    subst this
    exact hne (herrs pkg hpkg)
  · rintro absDir ha ⟨e, he⟩
    apply herr
    intro r hr
    obtain ⟨_, absDir1, files, _, _, ha1, hf, _⟩ := hmain r hr
    rw [ha] at ha1
    have := Except.ok.inj ha1
    subst this
    rw [he] at hf
    exact Except.noConfusion hf
  · intro absDir files path ha hf hp hb hfail
    apply herr
    intro r hr
    obtain ⟨_, absDir1, files1, _, _, ha1, hf1, hreads⟩ := hmain r hr
    rw [ha] at ha1
    have := Except.ok.inj ha1
    subst this
    rw [hf] at hf1
    have := Except.ok.inj hf1
    subst this
    obtain ⟨⟨f1, h1⟩, ⟨f2, h2⟩⟩ := hreads path hp hb
    rcases hfail with ⟨e, he⟩ | ⟨e, he⟩
    · rw [he] at h1
      exact Except.noConfusion h1
    · rw [he] at h2
      exact Except.noConfusion h2
  · intro pkgs absDir files hl herrs ha hf hreads
    have hload := (loadLocalPackages_ok_iff env modDir pkgs).2 ⟨hl, herrs⟩
    have hmods : ∀ path ∈ files, env.Base path = "go.mod" →
        ∃ ms, getChangedMods env path absDir fromRef toRef = .ok ms := by
      intro path hp hb
      obtain ⟨⟨old, h1⟩, ⟨cur, h2⟩⟩ := hreads path hp hb
      exact getChangedMods_ok_of_read env path absDir fromRef toRef
        ⟨(cur, old), (readModFiles_ok_iff env absDir path fromRef toRef cur old).2 ⟨h1, h2⟩⟩
    obtain ⟨cm, hc⟩ := collectChanges_loop_ok env pkgs absDir fromRef toRef files [] [] hmods
    refine ⟨GetChangedPackages.propagate pkgs cm
      (files.foldl (fun cp path => collectChanges.markOwner env pkgs absDir path cp) []), ?_⟩
    unfold GetChangedPackages
    simp only [hload, ha, hf]
    unfold GetChangedPackages.fromChangedFiles collectChanges
    rw [hc]

/-! ## More on the go.mod diff -/

/-- Without any uniqueness: what the replace loop adds are replace sources of the list. -/
theorem mem_replaceLoop_sources (rs : List modfile.Replace) :
    ∀ (st : StringSet × GoMap module.Version) (x : String),
      x ∈ (rs.foldl changedModsFromReplace.step st).1 →
        x ∈ st.1 ∨ x ∈ rs.map (fun r => r.Old.Path) := by
  induction rs with
  | nil => intro st x h; exact Or.inl h
  | cons r rs ih =>
    intro st x h
    rw [List.foldl_cons] at h
    rcases ih _ x h with h1 | h1
    · rcases (mem_replaceStep st r x).1 h1 with h2 | ⟨h2, _⟩
      · exact Or.inl h2
      · exact Or.inr (by simp [h2])
    · exact Or.inr (List.mem_cons_of_mem _ h1)

/-- Without any uniqueness: every path in the result of `changedModsFromReplace` is a replace
source of the new or of the old file. -/
theorem mem_changedModsFromReplace_sources (cur old : modfile.File) (x : String)
    (h : x ∈ changedModsFromReplace cur old) :
    x ∈ replaceSources cur ∨ x ∈ replaceSources old := by
  unfold changedModsFromReplace at h
  simp only [StringSet.mem_foldl_add, GoMap.mem_keys_iff, replaceLoop_get] at h
  rcases h with h | h
  · rcases mem_replaceLoop_sources _ _ x h with h1 | h1
    · exact absurd h1 (List.not_mem_nil _)
    · exact Or.inl h1
  · by_cases hx : x ∈ cur.Replace.map (fun r => r.Old.Path)
    · exact Or.inl hx
    · rw [if_neg hx] at h
      right
      by_contra hnot
      exact h ((oldReplaceMap_eq_none _ _).2 hnot)

/-- Without any uniqueness: what the require pass adds is required in both files with
different versions. -/
theorem mem_requirePass_imp (cur old : modfile.File) (cm : StringSet) (p : String)
    (h : p ∈ cur.Require.foldl (getChangedMods.step (getChangedMods.oldModMap old.Require)) cm) :
    p ∈ cm ∨ ∃ rn ∈ cur.Require, ∃ ro ∈ old.Require,
      rn.Mod.Path = p ∧ ro.Mod.Path = p ∧ rn.Mod.Version ≠ ro.Mod.Version := by
  rcases (mem_requireLoop _ _ _ _).1 h with h1 | ⟨r, hr, hrp, o, ho, hne⟩
  · exact Or.inl h1
  · obtain ⟨ho1, ho2⟩ := oldModMap_some _ _ _ ho
    exact Or.inr ⟨r, hr, o, ho1, hrp, ho2, hne⟩

/-! ### C14 -/

/-- C14. The code breaks what the claim, and the doc comment of `GetChangedPackages`, say.
With no replace directive before and the directive A => B v1 after, `getChangedMods` records
A, the module on the left side: A is required in neither file and is on the right side of no
replace directive of either file, while B, the module on the right side of the added
directive, is not recorded. And when both references hold the same file with two directives
for the source path A, A is recorded although no directive was added, updated or removed. -/
theorem C14_records_left_side_of_replace :
    getChangedMods (exampleEnv [("old:go.mod", modEmpty), ("new:go.mod", modReplaceAByB)])
        "go.mod" "/repo" "old" "new" = .ok ["A"] ∧
      modReplaceAByB.Require = [] ∧ modEmpty.Require = [] ∧
      modReplaceAByB.Replace = [⟨⟨"A", ""⟩, ⟨"B", "v1"⟩⟩] ∧ modEmpty.Replace = [] ∧
      (∀ r ∈ modReplaceAByB.Replace ++ modEmpty.Replace, r.New.Path ≠ "A") ∧
      (∃ r ∈ modReplaceAByB.Replace, r.New.Path = "B") ∧ "B" ∉ (["A"] : StringSet) ∧
      getChangedMods
        (exampleEnv [("old:go.mod", modTwoReplacesA), ("new:go.mod", modTwoReplacesA)])
        "go.mod" "/repo" "old" "new" = .ok ["A"] :=
  ⟨rfl, rfl, rfl, rfl, rfl, by decide, ⟨_, List.Mem.head _, rfl⟩, by decide, rfl⟩

/-! ### C18 -/

/-- C18. The go.mod diff is symmetric in its two arguments: when the files `A` and `B` read
at two references each have at most one requirement per module path and at most one replace
directive per source module path, `getChangedMods` from the first reference to the second and
from the second to the first return sets with the same module paths. -/
theorem C18_manifest_diff_symmetric (env : Env) (modPath repoDir refA refB : String)
    (A B : modfile.File)
    (hA : readModFileAtRef env repoDir modPath refA = .ok A)
    (hB : readModFileAtRef env repoDir modPath refB = .ok B)
    (hreqA : UniqueRequires A) (hrepA : UniqueReplaceSources A)
    (hreqB : UniqueRequires B) (hrepB : UniqueReplaceSources B) :
    ∃ r1 r2, getChangedMods env modPath repoDir refA refB = .ok r1 ∧
      getChangedMods env modPath repoDir refB refA = .ok r2 ∧ ∀ p, p ∈ r1 ↔ p ∈ r2 := by
  have hAB : readModFiles env repoDir modPath refA refB = .ok (B, A) :=
    (readModFiles_ok_iff env repoDir modPath refA refB B A).2 ⟨hA, hB⟩
  have hBA : readModFiles env repoDir modPath refB refA = .ok (A, B) :=
    (readModFiles_ok_iff env repoDir modPath refB refA A B).2 ⟨hB, hA⟩
  refine ⟨_, _, getChangedMods_ok env modPath repoDir refA refB B A hAB,
    getChangedMods_ok env modPath repoDir refB refA A B hBA, ?_⟩
  intro p
  rw [mem_requirePass_iff B A hreqA, mem_requirePass_iff A B hreqB,
    mem_changedModsFromReplace_iff B A hrepB hrepA,
    mem_changedModsFromReplace_iff A B hrepA hrepB]
  constructor
  · rintro ((h | ⟨rn, hrn, ro, hro, h1, h2, h3⟩ | h) | ⟨rn, hrn, ro, hro, h1, h2, h3⟩)
    · exact Or.inl (Or.inr (Or.inr h))
    · exact Or.inl (Or.inr (Or.inl ⟨ro, hro, rn, hrn, h2, h1, fun e => h3 e.symm⟩))
    · exact Or.inl (Or.inl h)
    · exact Or.inr ⟨ro, hro, rn, hrn, h2, h1, fun e => h3 e.symm⟩
  · rintro ((h | ⟨rn, hrn, ro, hro, h1, h2, h3⟩ | h) | ⟨rn, hrn, ro, hro, h1, h2, h3⟩)
    · exact Or.inl (Or.inr (Or.inr h))
    · exact Or.inl (Or.inr (Or.inl ⟨ro, hro, rn, hrn, h2, h1, fun e => h3 e.symm⟩))
    · exact Or.inl (Or.inl h)
    · exact Or.inr ⟨ro, hro, rn, hrn, h2, h1, fun e => h3 e.symm⟩

/-- C18 on the example: lib at v1 at one reference and at v2 at the other; both directions
give lib. -/
theorem C18_manifest_diff_symmetric_witness :
    getChangedMods envLibBump "go.mod" "/repo" "old" "new" = .ok ["lib"] ∧
      getChangedMods envLibBump "go.mod" "/repo" "new" "old" = .ok ["lib"] ∧
      ∃ r1 r2, getChangedMods envLibBump "go.mod" "/repo" "old" "new" = .ok r1 ∧
        getChangedMods envLibBump "go.mod" "/repo" "new" "old" = .ok r2 ∧
        ∀ p, p ∈ r1 ↔ p ∈ r2 :=
  ⟨rfl, rfl,
    C18_manifest_diff_symmetric envLibBump "go.mod" "/repo" "old" "new" modLibV1 modLibV2
      rfl rfl (by decide) (by decide) (by decide) (by decide)⟩

/-! ## Parsing the list of changed files -/

/-- A piece without the separator is read into the current piece. -/
theorem splitChars_append (sep : Char) (w : List Char) :
    ∀ (cur rest : List Char), sep ∉ w →
      strings.splitChars sep cur (w ++ rest) = strings.splitChars sep (cur ++ w) rest := by
  induction w with
  | nil => intro cur rest _; simp
  | cons c w ih =>
    intro cur rest h
    have hc : ¬ c = sep := fun e => h (e ▸ List.mem_cons_self _ _)
    have hw : sep ∉ w := fun e => h (List.mem_cons_of_mem _ e)
    rw [List.cons_append, strings.splitChars, if_neg hc, ih _ _ hw]
    simp

/-- Splitting pieces without the separator, joined by the separator, gives the pieces. -/
theorem splitChars_joined (sep : Char) (ws : List (List Char)) :
    ∀ (w0 cur : List Char), sep ∉ w0 → (∀ w ∈ ws, sep ∉ w) →
      strings.splitChars sep cur (w0 ++ (ws.map (fun w => sep :: w)).flatten) =
        (cur ++ w0) :: ws := by
  induction ws with
  | nil =>
    intro w0 cur h0 _
    rw [List.map_nil, List.flatten_nil, splitChars_append sep w0 cur [] h0]
    rfl
  | cons w1 ws ih =>
    intro w0 cur h0 h
    rw [List.map_cons, List.flatten_cons, splitChars_append sep w0 cur _ h0,
      List.cons_append, strings.splitChars, if_pos rfl,
      ih w1 [] (h w1 (List.mem_cons_self _ _)) (fun w hw => h w (List.mem_cons_of_mem _ hw))]
    rfl

/-- Pieces each followed by the separator are the pieces joined by the separator, followed
by one separator. -/
theorem terminated_eq_joined (sep : Char) (ws : List (List Char)) :
    ∀ (w0 : List Char),
      w0 ++ sep :: (ws.map (fun w => w ++ [sep])).flatten =
        (w0 ++ (ws.map (fun w => sep :: w)).flatten) ++ [sep] := by
  induction ws with
  | nil => intro w0; simp
  | cons w1 ws ih =>
    intro w0
    rw [List.map_cons, List.flatten_cons, List.map_cons, List.flatten_cons]
    have h := ih w1
    simp only [List.append_assoc, List.singleton_append, List.cons_append,
      List.nil_append] at h ⊢
    rw [h]

theorem nulTerminated_data (p0 : String) (rest : List String) :
    (nulTerminated (p0 :: rest)).data =
      (p0.data ++ ((rest.map String.data).map (fun w => Char.ofNat 0 :: w)).flatten)
        ++ [Char.ofNat 0] := by
  have h := terminated_eq_joined (Char.ofNat 0) (rest.map String.data) p0.data
  rw [← h]
  have hf : (String.data ∘ fun p : String => p ++ "\x00") =
      ((fun w => w ++ [Char.ofNat 0]) ∘ String.data) := by
    funext p
    show (p ++ "\x00").data = p.data ++ [Char.ofNat 0]
    rw [String.data_append]
  have hhead : (p0 ++ "\x00").data = p0.data ++ [Char.ofNat 0] := by
    rw [String.data_append]
  unfold nulTerminated
  rw [String.data_join, List.map_cons, List.map_cons, List.flatten_cons, hhead,
    List.map_map, List.map_map, hf]
  simp only [List.append_assoc, List.singleton_append]

/-- Trimming the final NUL of a text ending in NUL. -/
theorem TrimSuffix_nul (body : List Char) :
    strings.TrimSuffix ⟨body ++ [Char.ofNat 0]⟩ "\x00" = ⟨body⟩ := by
  have hnul : ("\x00" : String).data = [Char.ofNat 0] := by decide
  unfold strings.TrimSuffix
  rw [hnul]
  have hsuf : [Char.ofNat 0].isSuffixOf (body ++ [Char.ofNat 0]) = true :=
    List.isSuffixOf_iff_suffix.2 (List.suffix_append _ _)
  simp only [hsuf, if_true, List.length_append, List.length_singleton, Nat.add_sub_cancel]
  rw [List.take_left]

/-- The parsing step of `getChangedFiles` on a non-empty list of paths, each followed by a
NUL. -/
theorem parse_nulTerminated (paths : List String) (hne : paths ≠ [])
    (hnul : ∀ p ∈ paths, Char.ofNat 0 ∉ p.data) :
    strings.Split (strings.TrimSuffix (nulTerminated paths) "\x00") (Char.ofNat 0) = paths := by
  cases paths with
  | nil => exact absurd rfl hne
  | cons p0 rest =>
    have hdata := nulTerminated_data p0 rest
    have hstr : nulTerminated (p0 :: rest) =
        ⟨(p0.data ++ ((rest.map String.data).map (fun w => Char.ofNat 0 :: w)).flatten)
          ++ [Char.ofNat 0]⟩ := by
      rw [← hdata]
    rw [hstr, TrimSuffix_nul]
    unfold strings.Split
    simp only
    rw [splitChars_joined (Char.ofNat 0) (rest.map String.data) p0.data []
      (hnul p0 (List.mem_cons_self _ _))]
    · have hid : (String.mk ∘ String.data) = id := by
        funext p
        rfl
      simp only [List.nil_append, List.map_cons, List.map_map, hid, List.map_id]
    · intro w hw
      obtain ⟨p, hp, rfl⟩ := List.mem_map.1 hw
      exact hnul p (List.mem_cons_of_mem _ hp)

/-! ### C19 -/

/-- C19. Changed-file list parsing round trip: for a non-empty list of paths none of which
contains a NUL, the parsing step of `getChangedFiles` (trim one trailing NUL, split on NUL)
applied to the paths each followed by a NUL returns the list, in order, and so does
`getChangedFiles` when `git diff` prints that text; for the empty output the parsing step
returns the list whose only element is the empty string. -/
theorem C19_changed_files_round_trip (paths : List String) (hne : paths ≠ [])
    (hnul : ∀ p ∈ paths, Char.ofNat 0 ∉ p.data) :
    strings.Split (strings.TrimSuffix (nulTerminated paths) "\x00") (Char.ofNat 0) = paths ∧
      strings.Split (strings.TrimSuffix "" "\x00") (Char.ofNat 0) = [""] ∧
      ∀ (env : Env) (repoDir fromRef toRef : String),
        git.RunGitCmd env ["-C", repoDir, "diff", "--name-only", "-z", fromRef, toRef] =
          .ok (nulTerminated paths) →
        getChangedFiles env repoDir fromRef toRef = .ok paths := by
  refine ⟨parse_nulTerminated paths hne hnul, by decide, ?_⟩
  intro env repoDir fromRef toRef hrun
  unfold getChangedFiles
  rw [hrun]
  simp only
  rw [parse_nulTerminated paths hne hnul]

/-- C19 on the example: the output for go.mod and pkgA/file.go parses to these two paths;
the scenario's `git diff` prints that output. -/
theorem C19_changed_files_round_trip_witness :
    nulTerminated ["go.mod", "pkgA/file.go"] = "go.mod\x00pkgA/file.go\x00" ∧
      (∀ p ∈ ["go.mod", "pkgA/file.go"], Char.ofNat 0 ∉ p.data) ∧
      strings.Split (strings.TrimSuffix (nulTerminated ["go.mod", "pkgA/file.go"]) "\x00")
        (Char.ofNat 0) = ["go.mod", "pkgA/file.go"] ∧
      getChangedFiles scenarioEnv "/repo" "old" "new" = .ok ["go.mod", "pkgA/file.go"] :=
  have h := C19_changed_files_round_trip ["go.mod", "pkgA/file.go"]
    (List.cons_ne_nil _ _) (by decide)
  ⟨by decide, by decide, h.1, h.2.2 scenarioEnv "/repo" "old" "new" rfl⟩

end changed
